import Mathlib

/-!
Verification of the Prism reverse proxy (crates/prism) against its
natural-language specification.  The definitions below are shallow
embeddings of the Rust source; strings are modelled as `List Char`
restricted to the ASCII behaviour the code relies on, and byte buffers
as `List Nat` (each entry a byte value).
-/

set_option autoImplicit false

namespace Prism

/-- Byte strings / text, modelling Rust `String` over its ASCII fragment. -/
abbrev Str := List Char

/-- Models `u8::to_ascii_lowercase` on one character. -/
def asciiLowerChar (c : Char) : Char :=
  if 'A' ≤ c ∧ c ≤ 'Z' then Char.ofNat (c.toNat + 32) else c

/-- Models `str::to_ascii_lowercase`. -/
def lowerAscii (s : Str) : Str := s.map asciiLowerChar

/-- ASCII whitespace test; models `char::is_whitespace` on the ASCII range. -/
def isWsChar (c : Char) : Bool :=
  c = ' ' || c = '\t' || c = '\n' || c = '\r'

/-- Models `str::trim` (ASCII whitespace). -/
def trimStr (s : Str) : Str :=
  ((s.dropWhile isWsChar).reverse.dropWhile isWsChar).reverse

/-- Normalisation `trim().to_ascii_lowercase()` applied to emitted hosts. -/
def normHost (s : Str) : Str := lowerAscii (trimStr s)

/-! ## Middleware model (crates/prism/src/prism/middleware.rs)

`MiddlewareError`, `MiddlewarePhase`, `MiddlewareCtx`, `MiddlewareOutput`
and the `Middleware` trait are embedded directly.  A middleware is its
`apply` function together with its `name`. -/

/-- Embeds `enum MiddlewareError` (middleware.rs:13-20). -/
inductive MwErr where
  | needMoreData
  | noMatch
  | fatal (msg : String)
deriving DecidableEq, Repr

/-- Embeds `enum MiddlewarePhase` (middleware.rs:22-28). -/
inductive MwPhase where
  | parse
  | rewrite
deriving DecidableEq, Repr

/-- Embeds `struct MiddlewareCtx` (middleware.rs:30-35). -/
structure MwCtx where
  phase : MwPhase
  selected_upstream : Option Str
deriving DecidableEq, Repr

/-- Embeds `MiddlewareCtx::parse()` (middleware.rs:38-43). -/
def MwCtx.parseCtx : MwCtx := { phase := .parse, selected_upstream := none }

/-- Embeds `MiddlewareCtx::rewrite(selected_upstream)` (middleware.rs:45-50):
the upstream label is trimmed. -/
def MwCtx.rewriteCtx (selected_upstream : Str) : MwCtx :=
  { phase := .rewrite, selected_upstream := some (trimStr selected_upstream) }

/-- Embeds `struct MiddlewareOutput` (middleware.rs:53-59). -/
structure MwOutput where
  host : Option Str := none
  rewrite : Option (List Nat) := none

/-- Embeds the `Middleware` trait (middleware.rs:61-64): a name plus an
`apply` function from prelude bytes and a context to output or error. -/
structure Middleware where
  name : Str
  apply : List Nat → MwCtx → Except MwErr MwOutput

/-- Embeds `ChainMiddleware::new` (middleware.rs:101-107): modules whose
trimmed name is empty are filtered out; the chain is the remaining list. -/
def newChain (middlewares : List Middleware) : List Middleware :=
  middlewares.filter (fun m => !(trimStr m.name).isEmpty)

/-- Embeds the loop body of `ChainMiddleware::parse` (middleware.rs:115-154).
State: the current (possibly rewritten) buffer, the latest rewrite seen
(`rewritten`), and whether any module returned need-more-data. -/
def chainParseGo : List Middleware → List Nat → Option (List Nat) → Bool →
    Except MwErr (Str × Option (List Nat))
  | [], _, _, needMore =>
      .error (if needMore then .needMoreData else .noMatch)
  | m :: ms, current, rewritten, needMore =>
      match m.apply current MwCtx.parseCtx with
      | .ok out =>
          let current' := out.rewrite.getD current
          let rewritten' := match out.rewrite with
            | some rw => some rw
            | none => rewritten
          match out.host with
          | some host =>
              let h := normHost host
              if h.isEmpty then chainParseGo ms current' rewritten' needMore
              else .ok (h, rewritten')
          | none => chainParseGo ms current' rewritten' needMore
      | .error .needMoreData => chainParseGo ms current rewritten true
      | .error .noMatch => chainParseGo ms current rewritten needMore
      | .error (.fatal _) => chainParseGo ms current rewritten needMore

/-- Embeds `ChainMiddleware::parse` (middleware.rs:115-154). -/
def chainParse (ms : List Middleware) (prelude : List Nat) :
    Except MwErr (Str × Option (List Nat)) :=
  chainParseGo ms prelude none false

/-- Embeds the loop of `ChainMiddleware::rewrite` (middleware.rs:156-177):
every module runs in order on the threaded buffer, errors are ignored. -/
def chainRewriteGo : List Middleware → MwCtx → List Nat → Bool → Option (List Nat)
  | [], _, current, changed => if changed then some current else none
  | m :: ms, ctx, current, changed =>
      match m.apply current ctx with
      | .ok out =>
          match out.rewrite with
          | some rw => chainRewriteGo ms ctx rw true
          | none => chainRewriteGo ms ctx current changed
      | .error _ => chainRewriteGo ms ctx current changed

/-- Embeds `ChainMiddleware::rewrite` (middleware.rs:156-177). -/
def chainRewrite (ms : List Middleware) (prelude : List Nat)
    (selected_upstream : Str) : Option (List Nat) :=
  chainRewriteGo ms (MwCtx.rewriteCtx selected_upstream) prelude false

/-! Specification-side reformulation of chain parsing, used to state claim
C2.  Instead of one fused loop it first computes the per-module results on
their threaded buffers, then selects the first non-empty host. -/

/-- The buffer the next module sees after `m` ran on `buf` in parse phase:
a returned rewrite replaces the buffer, anything else keeps it. -/
def stepBuf (buf : List Nat) (m : Middleware) : List Nat :=
  match m.apply buf MwCtx.parseCtx with
  | .ok out => out.rewrite.getD buf
  | .error _ => buf

/-- Per-module parse results, each module applied to the buffer threaded
through the rewrites of the modules before it. -/
def mwResults : List Middleware → List Nat → List (Except MwErr MwOutput)
  | [], _ => []
  | m :: ms, buf => m.apply buf MwCtx.parseCtx :: mwResults ms (stepBuf buf m)

/-- The routing host a single module result emits: its `host` output,
trimmed and lowercased, when non-empty. -/
def emittedHost (r : Except MwErr MwOutput) : Option Str :=
  match r with
  | .ok out =>
      match out.host with
      | some h => let h' := normHost h; if h'.isEmpty then none else some h'
      | none => none
  | .error _ => none

/-- The rewrite a single module result contributes. -/
def resRewrite (r : Except MwErr MwOutput) : Option (List Nat) :=
  match r with
  | .ok out => out.rewrite
  | .error _ => none

/-- Latest rewrite among a list of results, starting from `acc`. -/
def lastRewriteFrom (rs : List (Except MwErr MwOutput))
    (acc : Option (List Nat)) : Option (List Nat) :=
  rs.foldl (fun acc r =>
    match resRewrite r with
    | some rw => some rw
    | none => acc) acc

/-- First result emitting a host, with its index. -/
def firstHost : List (Except MwErr MwOutput) → Option (Nat × Str)
  | [] => none
  | r :: rs =>
      match emittedHost r with
      | some h => some (0, h)
      | none => (firstHost rs).map (fun p => (p.1 + 1, p.2))

/-- Whether a result is the need-more-data signal. -/
def isNeedMore (r : Except MwErr MwOutput) : Bool :=
  match r with
  | .error .needMoreData => true
  | _ => false

/-- Claim-side description of chain parsing (spec §4.B "Chain semantics"):
the first non-empty trimmed/lowercased host emitted by a module in order
wins, paired with the latest rewrite produced up to and including that
module; a fatal module result counts as a non-match; if no module emitted
a host the chain returns need-more-data exactly when some module did,
otherwise no-match. -/
def chainParseSpec (ms : List Middleware) (prelude : List Nat) :
    Except MwErr (Str × Option (List Nat)) :=
  let rs := mwResults ms prelude
  match firstHost rs with
  | some (i, h) => .ok (h, lastRewriteFrom (rs.take (i + 1)) none)
  | none =>
      if rs.any isNeedMore then .error .needMoreData else .error .noMatch

/-! ## Router model (crates/prism/src/prism/router.rs)

`compile_wildcard_pattern` builds the regex `^...$` from a wildcard
pattern: `*` becomes the lazy group `(.*?)`, `?` becomes `(.)`, any
other character is emitted literally (regex metacharacters escaped), and
a backslash escapes the following character.  We embed the compiled
regex as a token list and give it its matching semantics directly
(anchored, leftmost-first, lazy stars preferring the shortest capture),
which is the behaviour of the regex crate on the patterns this function
produces.  An escaped character is modelled as a literal, which is the
behaviour for escaped punctuation; regex escape classes such as a
backslash before a letter are outside the wildcard language and not
modelled. -/

/-- One token of the compiled wildcard regex: a literal character, the
lazy group `(.*?)` from `*`, or the single-character group `(.)` from
`?`. -/
inductive WildTok where
  | lit (c : Char)
  | star
  | que
deriving DecidableEq, Repr

/-- Embeds the character scan of `compile_wildcard_pattern`
(router.rs:240-261), including the `escape_next` flag. -/
def wildToksGo : Bool → Str → List WildTok
  | _, [] => []
  | true, c :: rest => .lit c :: wildToksGo false rest
  | false, c :: rest =>
      if c = '*' then .star :: wildToksGo false rest
      else if c = '?' then .que :: wildToksGo false rest
      else if c = '\\' then wildToksGo true rest
      else .lit c :: wildToksGo false rest

/-- Embeds `compile_wildcard_pattern` (router.rs:231-264): the pattern is
trimmed and lowercased, then compiled to the anchored token sequence. -/
def compileWildcard (pattern : Str) : List WildTok :=
  wildToksGo false (lowerAscii (trimStr pattern))

/-- Number of capture groups of the compiled pattern: one per `*` or `?`. -/
def numGroups : List WildTok → Nat
  | [] => 0
  | .lit _ :: ts => numGroups ts
  | .star :: ts => numGroups ts + 1
  | .que :: ts => numGroups ts + 1

/-- Fuelled matcher for the compiled wildcard regex against a whole
string (the regex is anchored at both ends).  A lazy star first tries
the empty match and otherwise consumes one character into its capture
group, which is the leftmost-first semantics of `(.*?)`.  Returns the
capture groups in order.  The fuel only forces structural recursion;
`wildMatch` supplies enough for the recursion to complete. -/
def wildMatchF : Nat → List WildTok → Str → Option (List Str)
  | 0, _, _ => none
  | _ + 1, [], s => if s.isEmpty then some [] else none
  | f + 1, .lit c :: ts, s =>
      match s with
      | [] => none
      | x :: xs => if x = c then wildMatchF f ts xs else none
  | f + 1, .que :: ts, s =>
      match s with
      | [] => none
      | x :: xs => (wildMatchF f ts xs).map (fun gs => [x] :: gs)
  | f + 1, .star :: ts, s =>
      match wildMatchF f ts s with
      | some gs => some ([] :: gs)
      | none =>
          match s with
          | [] => none
          | x :: xs =>
              match wildMatchF f (.star :: ts) xs with
              | some (g :: gs) => some ((x :: g) :: gs)
              | some [] => none
              | none => none

/-- Anchored wildcard-regex match with capture groups. -/
def wildMatch (toks : List WildTok) (s : Str) : Option (List Str) :=
  wildMatchF (toks.length + s.length + 1) toks s

/-- Decimal digits of a natural number, as produced by `format!("${i}")`. -/
def natDigits (n : Nat) : Str := Nat.toDigits 10 n

/-- The parameter token `$i`. -/
def dollarTok (i : Nat) : Str := '$' :: natDigits i

/-- Models `str::replace(pat, rep)`: every non-overlapping occurrence of
`pat` in `s`, scanning left to right, is replaced by `rep`; replacement
text is not rescanned.  (The Rust behaviour for an empty pattern is not
needed here: the patterns used are `$i`, never empty.) -/
def replaceGoF (p0 : Char) (prest rep : Str) : Nat → Str → Str
  | 0, s => s
  | _ + 1, [] => []
  | f + 1, x :: xs =>
      if (p0 :: prest).isPrefixOf (x :: xs) then
        rep ++ replaceGoF p0 prest rep f (xs.drop prest.length)
      else
        x :: replaceGoF p0 prest rep f xs

/-- See `replaceGoF`; the fuel `s.length` suffices since each step
consumes at least one character of `s`.  An empty pattern never arises
for the `$i` patterns used by substitution. -/
def replaceAll (s pat rep : Str) : Str :=
  match pat with
  | [] => s
  | p0 :: prest => replaceGoF p0 prest rep s.length s

/-- Embeds `substitute_params` (router.rs:289-300): `$i` is replaced by
the i-th capture group, iterating from the highest index down. -/
def substitute_params (template : Str) (groups : List Str) : Str :=
  if template.isEmpty || groups.isEmpty then template
  else
    (List.range groups.length).reverse.foldl
      (fun res i => replaceAll res (dollarTok (i + 1)) (groups.getD i []))
      template

/-- Claim-side description of capture substitution (spec §4.C): each
occurrence of `$j` for `j = k .. 1`, taken from the highest index down,
is replaced by the j-th matched group. -/
def substDesc (groups : List Str) : Nat → Str → Str
  | 0, t => t
  | j + 1, t => substDesc groups j (replaceAll t (dollarTok (j + 1)) (groups.getD j []))

/-- Claim-side substitution: replace `$k` first, then down to `$1`. -/
def substSpecHighDown (template : Str) (groups : List Str) : Str :=
  substDesc groups groups.length template

/-- Embeds `struct CompiledPattern` (router.rs:41-46); the regex is
represented by its token list. -/
structure CompiledPattern where
  pattern : Str
  exact : Bool
  re : Option (List WildTok)

/-- Embeds `enum Strategy` (router.rs:48-53). -/
inductive Strategy where
  | sequential
  | random
  | roundRobin
deriving DecidableEq, Repr

/-- Embeds `struct CompiledRoute` (router.rs:33-39).  The round-robin
counter `rr` is the `AtomicU64` value; `rnd` is an oracle for the draw
`rng().random_range(0..n)` of the random strategy (of which only the
value modulo the candidate count matters). -/
structure CompiledRoute where
  patterns : List CompiledPattern
  upstreams : List Str
  strategy : Strategy
  rr : Nat
  rnd : Nat
  middleware : List Middleware

/-- Embeds `struct Resolution` (router.rs:13-22). -/
structure Resolution where
  host : Str
  upstreams : List Str
  matched_host : Str
  captures : List Str
  middleware : List Middleware
  prelude_override : Option (List Nat)

/-- Embeds `match_host` (router.rs:267-287).  For these anchored
patterns every group participates in a successful match, so the groups
are exactly the matcher's output. -/
def match_host (host : Str) (p : CompiledPattern) : Bool × List Str :=
  if p.exact then (host = p.pattern, [])
  else
    match p.re with
    | none => (false, [])
    | some toks =>
        match wildMatch toks host with
        | some gs => (true, gs)
        | none => (false, [])

/-- Embeds `rotate` (router.rs:320-334): rotate left by `start % n`. -/
def rotate (v : List Str) (start : Nat) : List Str :=
  if v.isEmpty then v
  else
    let s := start % v.length
    if s = 0 then v else v.drop s ++ v.take s

/-- Embeds `order_candidates` (router.rs:302-318) with the mutation of
the route's round-robin counter made explicit: returns the ordered list
and the new counter value (`fetch_add 1` wraps at `2^64`). -/
def order_candidates (strat : Strategy) (rnd rr : Nat) (cands : List Str) :
    List Str × Nat :=
  if cands.length ≤ 1 then (cands, rr)
  else
    match strat with
    | .sequential => (cands, rr)
    | .random => (rotate cands (rnd % cands.length), rr)
    | .roundRobin => (rotate cands (rr % cands.length), (rr + 1) % 2 ^ 64)

/-- Embeds the pattern loop of `resolve_route_for_host`
(router.rs:190-212). -/
def routePatternLoop (rt : CompiledRoute) (host : Str) :
    List CompiledPattern → Option Resolution
  | [] => none
  | p :: ps =>
      let mg := match_host host p
      if mg.1 then
        let candidates := rt.upstreams.map (fun u => substitute_params u mg.2)
        some { host := host
               upstreams := (order_candidates rt.strategy rt.rnd rt.rr candidates).1
               matched_host := p.pattern
               captures := mg.2
               middleware := rt.middleware
               prelude_override := none }
      else routePatternLoop rt host ps

/-- Embeds `resolve_route_for_host` (router.rs:184-213). -/
def resolve_route_for_host (rt : CompiledRoute) (host : Str) : Option Resolution :=
  let host := normHost host
  if host.isEmpty then none
  else routePatternLoop rt host rt.patterns

/-- Embeds the route loop of `Router::resolve_prelude` (router.rs:87-110),
with the need-more-data flag explicit. -/
def resolvePreludeGo : List CompiledRoute → List Nat → Bool →
    Except MwErr (Option Resolution)
  | [], _, needMore => if needMore then .error .needMoreData else .ok none
  | rt :: rs, prelude, needMore =>
      match chainParse rt.middleware prelude with
      | .ok (host, po) =>
          match resolve_route_for_host rt host with
          | some res => .ok (some { res with prelude_override := po })
          | none => resolvePreludeGo rs prelude needMore
      | .error .needMoreData => resolvePreludeGo rs prelude true
      | .error .noMatch => resolvePreludeGo rs prelude needMore
      | .error (.fatal _) => resolvePreludeGo rs prelude needMore

/-- Embeds `Router::resolve_prelude` (router.rs:81-111). -/
def resolvePrelude (routes : List CompiledRoute) (prelude : List Nat) :
    Except MwErr (Option Resolution) :=
  if routes.isEmpty then .ok none
  else resolvePreludeGo routes prelude false

/-- Round-robin counter of a route after `k` resolutions, starting at 0
(claim C8); each resolution performs the wrapping `fetch_add 1`. -/
def rrCounter (cands : List Str) : Nat → Nat
  | 0 => 0
  | k + 1 => (order_candidates .roundRobin 0 (rrCounter cands k) cands).2

/-- Candidate order returned by the k-th round-robin resolution
(1-indexed) of a route whose counter started at 0. -/
def rrNthResolution (cands : List Str) (k : Nat) : List Str :=
  (order_candidates .roundRobin 0 (rrCounter cands (k - 1)) cands).1

/-! ## WASM middleware output validation
(crates/prism/src/prism/middleware.rs, `WasmMiddleware::apply_impl`,
lines 461-540: interpretation of the `i64` returned by `prism_mw_run`).

Linear memory is a byte list; a read of `len` bytes at `ptr` through the
wasmer view is modelled by `memRead`, which fails exactly when the range
exceeds the memory size.  The embedding also records every range it
passes to `memRead`, so that the safety claim can speak about the reads
actually performed. -/

/-- A read from linear memory: fails iff the range is out of bounds. -/
def memRead (mem : List Nat) (ptr len : Nat) : Option (List Nat) :=
  if ptr + len ≤ mem.length then some ((mem.drop ptr).take len) else none

/-- `u32::from_le_bytes` of the four bytes of `l` at offset `i`. -/
def leU32At (l : List Nat) (i : Nat) : Nat :=
  l.getD i 0 + 256 * l.getD (i + 1) 0 + 65536 * l.getD (i + 2) 0 +
    16777216 * l.getD (i + 3) 0

/-- Bytes to text, modelling `String::from_utf8_lossy` on ASCII data. -/
def bytesToChars (b : List Nat) : Str := b.map Char.ofNat

/-- Embeds the result interpretation of `WasmMiddleware::apply_impl`
(middleware.rs:465-539).  `mem` is the linear memory after the call and
`out` the returned `i64`.  Returns the middleware result together with
the list of `(ptr, len)` ranges read from memory. -/
def parseWasmRet (mem : List Nat) (out : Int) :
    Except MwErr MwOutput × List (Nat × Nat) :=
  if out = 0 then (.error .needMoreData, [])
  else if out = 1 then (.error .noMatch, [])
  else if out = -1 then (.error (.fatal "wasm middleware fatal error"), [])
  else
    let u : Nat := (out.emod (2 ^ 64)).toNat
    let ptr : Nat := u % 2 ^ 32
    let len : Nat := u / 2 ^ 32
    if len < 16 then (.error (.fatal "wasm middleware output too small"), [])
    else if ptr + len ≥ 2 ^ 64 then
      -- mirrors the `checked_add` on u64, which cannot fire for u32 inputs
      (.error (.fatal "wasm output range overflow"), [])
    else if mem.length < ptr + len then
      (.error (.fatal "wasm output out of bounds"), [])
    else
      match memRead mem ptr 16 with
      | none => (.error (.fatal "wasm memory read failed"), [(ptr, 16)])
      | some header =>
          let host_ptr := leU32At header 0
          let host_len := leU32At header 4
          let rw_ptr := leU32At header 8
          let rw_len := leU32At header 12
          let reads0 : List (Nat × Nat) := [(ptr, 16)]
          if host_len > 0 then
            if host_ptr + host_len ≥ 2 ^ 64 then
              (.error (.fatal "host range overflow"), reads0)
            else if mem.length < host_ptr + host_len then
              (.error (.fatal "host out of bounds"), reads0)
            else
              match memRead mem host_ptr host_len with
              | none =>
                  (.error (.fatal "wasm host read failed"),
                    reads0 ++ [(host_ptr, host_len)])
              | some hbuf =>
                  let reads1 := reads0 ++ [(host_ptr, host_len)]
                  let host := normHost (bytesToChars hbuf)
                  let o : MwOutput :=
                    { host := if host.isEmpty then none else some host }
                  parseWasmRw mem rw_ptr rw_len o reads1
          else
            parseWasmRw mem rw_ptr rw_len {} reads0
where
  /-- The `rw_len > 0` tail of the interpretation (middleware.rs:522-539),
  shared by the with-host and without-host paths. -/
  parseWasmRw (mem : List Nat) (rw_ptr rw_len : Nat) (o : MwOutput)
      (reads : List (Nat × Nat)) : Except MwErr MwOutput × List (Nat × Nat) :=
    if rw_len > 0 then
      if rw_ptr + rw_len ≥ 2 ^ 64 then
        (.error (.fatal "rewrite range overflow"), reads)
      else if mem.length < rw_ptr + rw_len then
        (.error (.fatal "rewrite out of bounds"), reads)
      else
        match memRead mem rw_ptr rw_len with
        | none =>
            (.error (.fatal "wasm rewrite read failed"),
              reads ++ [(rw_ptr, rw_len)])
        | some buf =>
            let o := { o with rewrite := some buf }
            if o.host.isNone ∧ o.rewrite.isNone then
              (.error .noMatch, reads ++ [(rw_ptr, rw_len)])
            else (.ok o, reads ++ [(rw_ptr, rw_len)])
    else
      if o.host.isNone ∧ o.rewrite.isNone then (.error .noMatch, reads)
      else (.ok o, reads)

/-! ## Datagram framing (crates/prism/src/prism/tunnel/datagram.rs)

A tunnel stream is a byte list consumed from the front.  `none` models a
read that blocks because the advertised bytes have not arrived. -/

/-- `MAX_DATAGRAM_BYTES` and `MAX_REGISTER_JSON_BYTES` (protocol.rs:12-13). -/
def MAX_FRAME_BYTES : Nat := 2 ^ 20

/-- Embeds `enum ProtocolError` (tunnel/protocol.rs:15-29); the io variant
carries the short-buffer marker used by `read_datagram`. -/
inductive ProtoErr where
  | badMagic
  | badVersion
  | payloadTooLarge (n : Nat)
  | ioShortBuffer
  | jsonError
deriving DecidableEq, Repr

/-- Big-endian `u32` bytes, as written by `write_u32`. -/
def u32beBytes (n : Nat) : List Nat :=
  [n / 2 ^ 24 % 256, n / 2 ^ 16 % 256, n / 2 ^ 8 % 256, n % 256]

/-- Reads a big-endian `u32` from the stream; `none` if fewer than four
bytes are available. -/
def readU32be : List Nat → Option (Nat × List Nat)
  | b0 :: b1 :: b2 :: b3 :: rest =>
      some (((b0 * 256 + b1) * 256 + b2) * 256 + b3, rest)
  | _ => none

/-- Embeds `DatagramConn::write_datagram` (datagram.rs:47-58): a `u32be`
length prefix then the payload; payloads above `u32::MAX` or above 1 MiB
are rejected before anything is written. -/
def writeDatagram (payload : List Nat) : Except ProtoErr (List Nat) :=
  if payload.length ≥ 2 ^ 32 then .error (.payloadTooLarge (2 ^ 32 - 1))
  else if payload.length > MAX_FRAME_BYTES then
    .error (.payloadTooLarge payload.length)
  else .ok (u32beBytes payload.length ++ payload)

/-- Embeds `DatagramConn::read_datagram` (datagram.rs:28-45) against a
caller buffer of capacity `cap`.  Returns the outcome and the rest of
the stream; `none` when the stream does not yet hold the needed bytes.
An advertised length above the caller's capacity is fully drained before
the short-buffer error is reported. -/
def readDatagram (stream : List Nat) (cap : Nat) :
    Option (Except ProtoErr (List Nat) × List Nat) :=
  match readU32be stream with
  | none => none
  | some (n, rest) =>
      if n > MAX_FRAME_BYTES then some (.error (.payloadTooLarge n), rest)
      else if n > cap then
        if rest.length < n then none
        else some (.error .ioShortBuffer, rest.drop n)
      else
        if rest.length < n then none
        else some (.ok (rest.take n), rest.drop n)

/-! ## Register protocol (crates/prism/src/prism/tunnel/protocol.rs)

The JSON codec is serde; it is external to this repository, so
serialization is abstracted as an encode/decode pair, with the round
trip `dec (enc req) = some req` (guaranteed by the serde derive) taken
as a hypothesis where needed.  The framing and the normalization are
embedded from the source. -/

/-- Embeds `struct RegisteredService` (protocol.rs:40-54). -/
structure RegisteredService where
  name : Str
  proto : Str
  local_addr : Str
  route_only : Bool
  remote_addr : Str
  masquerade_host : Str
deriving DecidableEq, Repr

/-- Embeds `RegisteredService::normalize` (protocol.rs:57-73). -/
def RegisteredService.normalize (s : RegisteredService) :
    Option RegisteredService :=
  let name := trimStr s.name
  if name.isEmpty then none
  else
    let proto := lowerAscii (trimStr s.proto)
    let proto := if proto.isEmpty then "tcp".data else proto
    let local_addr := trimStr s.local_addr
    let remote_addr := trimStr s.remote_addr
    let masquerade_host := lowerAscii (trimStr s.masquerade_host)
    let remote_addr := if s.route_only then [] else remote_addr
    some { name := name, proto := proto, local_addr := local_addr,
           route_only := s.route_only, remote_addr := remote_addr,
           masquerade_host := masquerade_host }

/-- Claim-side normalization as worded by claim C7: name trimmed (empty
names dropped), proto trimmed and lowercased, addresses trimmed,
masquerade host trimmed and lowercased, remote address cleared when
`route_only` — with no defaulting of the protocol. -/
def specNormalizeClaim (s : RegisteredService) : Option RegisteredService :=
  if (trimStr s.name).isEmpty then none
  else
    some { name := trimStr s.name
           proto := lowerAscii (trimStr s.proto)
           local_addr := trimStr s.local_addr
           route_only := s.route_only
           remote_addr := if s.route_only then [] else trimStr s.remote_addr
           masquerade_host := lowerAscii (trimStr s.masquerade_host) }

/-- Amended claim-side normalization: as `specNormalizeClaim`, but an
empty (after trimming and lowercasing) protocol defaults to `tcp`, which
is what the source does. -/
def specNormalizeAmended (s : RegisteredService) : Option RegisteredService :=
  if (trimStr s.name).isEmpty then none
  else
    some { name := trimStr s.name
           proto := if (lowerAscii (trimStr s.proto)).isEmpty then "tcp".data
                    else lowerAscii (trimStr s.proto)
           local_addr := trimStr s.local_addr
           route_only := s.route_only
           remote_addr := if s.route_only then [] else trimStr s.remote_addr
           masquerade_host := lowerAscii (trimStr s.masquerade_host) }

/-- Embeds `struct RegisterRequest` (protocol.rs:31-37). -/
structure RegisterRequest where
  token : Str
  services : List RegisteredService
deriving DecidableEq, Repr

/-- The bytes of `MAGIC_REGISTER = b"PRRG"` (protocol.rs:7). -/
def MAGIC_REGISTER : List Nat := [0x50, 0x52, 0x52, 0x47]

/-- Embeds `write_register_request` (protocol.rs:76-88) over an abstract
JSON encoder: magic, version byte 1, `u32be` length (saturated at
`u32::MAX` by `unwrap_or`), then the JSON bytes. -/
def writeRegisterRequest (enc : RegisterRequest → List Nat)
    (req : RegisterRequest) : List Nat :=
  let b := enc req
  MAGIC_REGISTER ++ [1] ++ u32beBytes (min b.length (2 ^ 32 - 1)) ++ b

/-- Embeds `read_register_request` (protocol.rs:90-121) over an abstract
JSON decoder; `none` models a blocking read on a stream not yet holding
the advertised bytes.  On success every service is normalized and
services normalizing to `None` are dropped. -/
def readRegisterRequest (dec : List Nat → Option RegisterRequest)
    (stream : List Nat) :
    Option (Except ProtoErr RegisterRequest × List Nat) :=
  match stream with
  | m0 :: m1 :: m2 :: m3 :: afterMagic =>
      if [m0, m1, m2, m3] ≠ MAGIC_REGISTER then some (.error .badMagic, afterMagic)
      else
        match afterMagic with
        | [] => none
        | v :: afterVer =>
            if v ≠ 1 then some (.error .badVersion, afterVer)
            else
              match readU32be afterVer with
              | none => none
              | some (n, rest) =>
                  if n > MAX_FRAME_BYTES then
                    some (.error (.payloadTooLarge n), rest)
                  else if rest.length < n then none
                  else
                    match dec (rest.take n) with
                    | none => some (.error .jsonError, rest.drop n)
                    | some req =>
                        some (.ok { req with
                            services :=
                              req.services.filterMap RegisteredService.normalize },
                          rest.drop n)
  | _ => none

/-! ## Tunnel manager (crates/prism/src/prism/tunnel/manager.rs)

The two hash maps (`clients`, `primary`) are modelled as association
lists; `aget` finds the first binding, `aset` is `HashMap::insert`
(replace or append) and `adel` removes a key.  Transport sessions, the
remote address, and the change channel play no part in the registry
logic and are omitted; the `Instant` timestamps are naturals. -/

section AssocOps

variable {α : Type}

/-- `HashMap::get` on the association-list model. -/
def aget (k : Str) : List (Str × α) → Option α
  | [] => none
  | kv :: t => if kv.1 = k then some kv.2 else aget k t

/-- `HashMap::insert` on the association-list model. -/
def aset (k : Str) (v : α) : List (Str × α) → List (Str × α)
  | [] => [(k, v)]
  | kv :: t => if kv.1 = k then (k, v) :: t else kv :: aset k v t

/-- `HashMap::remove` on the association-list model. -/
def adel (k : Str) : List (Str × α) → List (Str × α)
  | [] => []
  | kv :: t => if kv.1 = k then adel k t else kv :: adel k t

end AssocOps

/-- Embeds `struct ClientConn` (manager.rs:31-37), keeping the fields the
registry logic reads: the id, the services map and the `started` time. -/
structure ClientConn where
  id : Str
  services : List (Str × RegisteredService)
  started : Nat
deriving DecidableEq, Repr

/-- Embeds `struct State` (manager.rs:39-42). -/
structure MgrState where
  clients : List (Str × ClientConn)
  primary : List (Str × Str)

/-- A client provides a service name when its services map holds it. -/
def providesName (c : ClientConn) (name : Str) : Bool :=
  (aget name c.services).isSome

/-- Building the new client's services map (manager.rs:103-107): each
service is normalized, dropped when normalization fails, and inserted
under its normalized name. -/
def buildServices (svcs : List RegisteredService) :
    List (Str × RegisteredService) :=
  svcs.foldl
    (fun acc s =>
      match s.normalize with
      | some ns => aset ns.name ns acc
      | none => acc) []

/-- One step of the election fold of `promote_primary_locked`
(manager.rs:307-313): keep the candidate with the strictly smaller
`started`, the earlier one on ties. -/
def chooseStep (name : Str) (ch : Option (Str × Nat)) (kv : Str × ClientConn) :
    Option (Str × Nat) :=
  if providesName kv.2 name then
    match ch with
    | none => some (kv.1, kv.2.started)
    | some c => if kv.2.started < c.2 then some (kv.1, kv.2.started) else ch
  else ch

/-- The elected client for a service: the provider with the oldest
`started` timestamp (first in iteration order on ties). -/
def chooseMin (clients : List (Str × ClientConn)) (name : Str) :
    Option (Str × Nat) :=
  clients.foldl (chooseStep name) none

/-- Embeds `promote_primary_locked` (manager.rs:304-318): make the
elected client primary; no provider leaves the primary map untouched. -/
def promotePrimary (clients : List (Str × ClientConn))
    (primary : List (Str × Str)) (name : Str) : List (Str × Str) :=
  match chooseMin clients name with
  | some c => aset name c.1 primary
  | none => primary

/-- One step of the re-election loop (manager.rs:115-118): when the
departing client owns the service, clear the entry and re-elect. -/
def reelectStep (id : Str) (st : MgrState) (name : Str) : MgrState :=
  if aget name st.primary = some id then
    { st with primary := promotePrimary st.clients (adel name st.primary) name }
  else st

/-- The re-election loop shared by register and unregister
(manager.rs:114-119 and 145-150): for each given service name owned by
the departing client, clear the entry and re-elect. -/
def reelect (st : MgrState) (names : List Str) (id : Str) : MgrState :=
  names.foldl (reelectStep id) st

/-- Embeds `Manager::register_client` (manager.rs:83-132).  A blank id is
rejected before any mutation (modelled as a no-op on the state).  An
existing client with the same id is removed and its primaries re-elected
first; then every new service's primary is set if unset (first writer
wins) and the client is inserted. -/
def registerClient (st : MgrState) (id : Str) (started : Nat)
    (svcs : List RegisteredService) : MgrState :=
  if (trimStr id).isEmpty then st
  else
    let cc : ClientConn := { id := id, services := buildServices svcs,
                             started := started }
    let st1 :=
      match aget id st.clients with
      | some old =>
          reelect { st with clients := adel id st.clients }
            (old.services.map Prod.fst) id
      | none => st
    let pr :=
      cc.services.foldl
        (fun pr kv =>
          match aget kv.1 pr with
          | some _ => pr
          | none => aset kv.1 id pr)
        st1.primary
    { clients := aset id cc st1.clients, primary := pr }

/-- Embeds `Manager::unregister_client` (manager.rs:134-154). -/
def unregisterClient (st : MgrState) (rawId : Str) : MgrState :=
  let id := trimStr rawId
  if id.isEmpty then st
  else
    match aget id st.clients with
    | none => st
    | some old =>
        reelect { st with clients := adel id st.clients }
          (old.services.map Prod.fst) id

/-- One registry operation. -/
inductive MgrOp where
  | register (id : Str) (started : Nat) (svcs : List RegisteredService)
  | unregister (id : Str)

/-- Applies one operation. -/
def applyOp (st : MgrState) : MgrOp → MgrState
  | .register id started svcs => registerClient st id started svcs
  | .unregister id => unregisterClient st id

/-- State after a finite sequence of operations from the empty manager. -/
def runOps (ops : List MgrOp) : MgrState :=
  ops.foldl applyOp { clients := [], primary := [] }

/-- Registry invariant: client keys are unique; every primary entry names
a surviving client providing that service; and every service provided by
any surviving client has a primary entry. -/
def MgrInv (st : MgrState) : Prop :=
  (st.clients.map Prod.fst).Nodup ∧
  (∀ name cid, aget name st.primary = some cid →
    ∃ c, aget cid st.clients = some c ∧ providesName c name) ∧
  (∀ name cid c, aget cid st.clients = some c → providesName c name →
    (aget name st.primary).isSome)

/-! ## Filesystem WASM middleware provider
(crates/prism/src/prism/middleware.rs, `FsWasmMiddlewareProvider`).

Only the name handling and the resulting path are relevant to claim C9;
the cache and the compilation of the WAT file are I/O.  `Path::join`
with the relative `"{name}.wat"` appends it under a separator, and with
an absolute right operand replaces the base. -/

/-- Embeds `FsWasmMiddlewareProvider::wat_path_for` (middleware.rs:193-195). -/
def fsWatPathFor (dir name : Str) : Str :=
  if name.headD ' ' = '/' then name ++ ".wat".data
  else dir ++ "/".data ++ name ++ ".wat".data

/-- Embeds the name handling of `FsWasmMiddlewareProvider::get`
(middleware.rs:199-212): the name is trimmed and rejected only when
empty; the file read is `<dir>/<name>.wat`. -/
def fsProviderGetPath (dir name : Str) : Except String Str :=
  let n := trimStr name
  if n.isEmpty then .error "middleware: empty name"
  else .ok (fsWatPathFor dir n)

/-- Claim-side name handling as worded by claim C9: after trimming,
`-` is normalized to `_`, and names containing a path separator or a
`.` (hence any file extension) are rejected before the lookup path is
formed. -/
def specValidatedGetPath (dir name : Str) : Except String Str :=
  let n := (trimStr name).map (fun c => if c = '-' then '_' else c)
  if n.isEmpty then .error "middleware: empty name"
  else if n.any (fun c => c = '/' || c = '\\' || c = '.') then
    .error "middleware: invalid name"
  else .ok (fsWatPathFor dir n)

/-! ## TCP routing handler prelude (crates/prism/src/prism/proxy.rs)

`handle_routing` (proxy.rs:1028-1203), after selecting an upstream,
forwards the captured prelude unchanged (proxy.rs:1173-1188: the
optional PROXY-protocol-v2 header, then `write_all(&captured)`); the
resolution's middleware chain and `prelude_override` are not consulted
at this point. -/

/-- Bytes `handle_routing` writes to the upstream before splicing
(proxy.rs:1173-1190): the PP2 header when enabled, then the captured
prelude unchanged.  The resolution is a parameter to express that the
written bytes do not depend on it. -/
def handleRoutingWrittenBytes (pp2 : Option (List Nat))
    (captured : List Nat) (_res : Resolution) : List Nat :=
  pp2.getD [] ++ captured

/-- Claim-side upstream label for the rewrite phase as worded by claim
C1: the masquerade host with captures substituted for a `tunnel:`
upstream, otherwise the upstream address label. -/
def specSelectedLabel (isTunnel : Bool) (masq : Str) (captures : List Str)
    (label : Str) : Str :=
  if isTunnel then substitute_params masq captures else label

/-- Claim-side combined prelude as worded by claim C1: start from
`prelude_override` (or the captured bytes), run the chain in rewrite
phase with the selected upstream label, and keep the rewritten buffer if
any module rewrote. -/
def specCombinedPrelude (captured : List Nat) (res : Resolution)
    (label : Str) : List Nat :=
  let base := res.prelude_override.getD captured
  (chainRewrite res.middleware base label).getD base

/-! ## Theorems -/

/-- The empty-routes guard of `resolve_prelude` agrees with the loop. -/
theorem resolvePrelude_eq_go (rs : List CompiledRoute) (p : List Nat) :
    resolvePrelude rs p = resolvePreludeGo rs p false := by
  cases rs <;> rfl

/-- A route whose chain is empty contributes nothing to the route loop. -/
theorem resolveGo_skip_empty_chain (rt : CompiledRoute)
    (h : rt.middleware = []) :
    ∀ (rs1 rs2 : List CompiledRoute) (p : List Nat) (nm : Bool),
      resolvePreludeGo (rs1 ++ rt :: rs2) p nm = resolvePreludeGo (rs1 ++ rs2) p nm := by
  intro rs1
  induction rs1 with
  | nil =>
      intro rs2 p nm
      simp [resolvePreludeGo, chainParse, chainParseGo, h]
  | cons r rs ih =>
      intro rs2 p nm
      simp only [List.cons_append, resolvePreludeGo]
      cases hc : chainParse r.middleware p with
      | ok v =>
          obtain ⟨host, po⟩ := v
          cases hr : resolve_route_for_host r host with
          | some res => simp [hr]
          | none => simp [hr, ih rs2 p nm]
      | error e => cases e <;> simp [ih rs2 p nm, ih rs2 p true]

/-- Claim C10: a chain built from no modules (or from modules whose names
are all blank, which the constructor filters out) parses to no-match and
rewrites to `none` on every input, and a route carrying an empty chain is
never selected by prelude resolution — equivalently, deleting such a
route from the table does not change any resolution. -/
theorem claim_C10 :
    (∀ p : List Nat, chainParse [] p = .error .noMatch) ∧
    (∀ (p : List Nat) (u : Str), chainRewrite [] p u = none) ∧
    (∀ mods : List Middleware, (∀ m ∈ mods, (trimStr m.name).isEmpty) →
      newChain mods = []) ∧
    (∀ rt : CompiledRoute, rt.middleware = [] →
      ∀ (rs1 rs2 : List CompiledRoute) (p : List Nat),
        resolvePrelude (rs1 ++ rt :: rs2) p = resolvePrelude (rs1 ++ rs2) p) := by
  refine ⟨fun p => rfl, fun p u => rfl, ?_, ?_⟩
  · intro mods hblank
    simp only [newChain, List.filter_eq_nil_iff]
    intro m hm
    simp [hblank m hm]
  · intro rt h rs1 rs2 p
    rw [resolvePrelude_eq_go, resolvePrelude_eq_go]
    exact resolveGo_skip_empty_chain rt h rs1 rs2 p false

/-- Claim C10 witness: a concrete blank-named module is filtered away and
a concrete empty-chain route is invisible to resolution. -/
theorem claim_C10_witness :
    newChain [{ name := " ".data, apply := fun _ _ => .error .noMatch }] = [] ∧
    resolvePrelude
        [{ patterns := [], upstreams := [], strategy := .sequential,
           rr := 0, rnd := 0, middleware := [] }] [0] =
      resolvePrelude [] [0] := by
  constructor
  · refine claim_C10.2.2.1 _ ?_
    intro m hm
    rw [List.mem_singleton] at hm
    subst hm
    decide
  · exact claim_C10.2.2.2 _ rfl [] [] [0]

/-- The claim C1 recipe disagrees with the handler: with a resolution
carrying a prelude override and an empty chain, the recipe yields the
override while the handler writes the captured bytes unchanged. -/
theorem claim_C1_counterexample :
    handleRoutingWrittenBytes none [1]
        { host := [], upstreams := [], matched_host := [], captures := [],
          middleware := [], prelude_override := some [0] } ≠
      specCombinedPrelude [1]
        { host := [], upstreams := [], matched_host := [], captures := [],
          middleware := [], prelude_override := some [0] }
        (specSelectedLabel false [] [] []) := by
  decide

/-- Claim C1 (amended): after an upstream has been selected the routing
handler writes the optional PROXY-protocol-v2 header followed by the
captured prelude unchanged; no rewrite phase runs, and the resolution's
middleware chain and prelude override do not influence the bytes. -/
theorem claim_C1_amended :
    ∀ (pp2 : Option (List Nat)) (captured : List Nat) (res res' : Resolution),
      handleRoutingWrittenBytes pp2 captured res = pp2.getD [] ++ captured ∧
      handleRoutingWrittenBytes pp2 captured res =
        handleRoutingWrittenBytes pp2 captured res' :=
  fun _ _ _ _ => ⟨rfl, rfl⟩

/-- The claim C9 validation disagrees with the provider: a name
containing a dot is accepted by the code and its path keeps the dot. -/
theorem claim_C9_counterexample :
    fsProviderGetPath "/mw".data "a.b".data ≠
      specValidatedGetPath "/mw".data "a.b".data := by
  have h1 : fsProviderGetPath "/mw".data "a.b".data =
      .ok "/mw/a.b.wat".data := by rfl
  have h2 : specValidatedGetPath "/mw".data "a.b".data =
      .error "middleware: invalid name" := by rfl
  intro h
  rw [h1, h2] at h
  exact Except.noConfusion h

/-- Claim C9 (amended): the filesystem provider only trims the name and
rejects an empty result; the file read is `<middleware_dir>/<name>.wat`
with every character of the trimmed name (dots, dashes and separators
included) kept verbatim — no validation and no dash normalization. -/
theorem claim_C9_amended :
    ∀ dir name : Str,
      fsProviderGetPath dir name =
        (if (trimStr name).isEmpty then .error "middleware: empty name"
         else .ok (fsWatPathFor dir (trimStr name))) ∧
      (¬(trimStr name).isEmpty →
        ∀ c ∈ trimStr name,
          ∃ p, fsProviderGetPath dir name = .ok p ∧ c ∈ p) := by
  intro dir name
  constructor
  · simp only [fsProviderGetPath]
  · intro hne c hc
    refine ⟨fsWatPathFor dir (trimStr name), ?_, ?_⟩
    · simp [fsProviderGetPath, hne]
    · unfold fsWatPathFor
      split
      · exact List.mem_append.mpr (Or.inl hc)
      · exact List.mem_append.mpr (Or.inl (List.mem_append.mpr (Or.inr hc)))

/-- Claim C9 amended witness: the dashed, undotted name `tls-sni` maps to
`/mw/tls-sni.wat` with the dash preserved. -/
theorem claim_C9_amended_witness :
    fsProviderGetPath "/mw".data "tls-sni".data =
        (if (trimStr "tls-sni".data).isEmpty then
           .error "middleware: empty name"
         else .ok (fsWatPathFor "/mw".data (trimStr "tls-sni".data))) ∧
      ∃ p, fsProviderGetPath "/mw".data "tls-sni".data = .ok p ∧ '-' ∈ p := by
  refine ⟨(claim_C9_amended "/mw".data "tls-sni".data).1, ?_⟩
  exact (claim_C9_amended "/mw".data "tls-sni".data).2 (by decide) '-' (by decide)

/-- Decoding a big-endian `u32` frame header recovers the length. -/
theorem readU32be_encode (n : Nat) (h : n < 2 ^ 32) (rest : List Nat) :
    readU32be (u32beBytes n ++ rest) = some (n, rest) := by
  simp only [u32beBytes, List.cons_append, List.nil_append, readU32be,
    Option.some.injEq, Prod.mk.injEq, and_true]
  omega

/-- Claim C6: for any payload of at most 1 MiB, the framed write is the
`u32be` length prefix followed by the payload, reading it back from the
stream with sufficient buffer capacity yields exactly the payload and
leaves the stream at the frame boundary, and reading it with a smaller
capacity drains the whole frame before returning the short-buffer
error. -/
theorem claim_C6 :
    ∀ (p rest : List Nat) (cap : Nat), p.length ≤ MAX_FRAME_BYTES →
      writeDatagram p = .ok (u32beBytes p.length ++ p) ∧
      (p.length ≤ cap →
        readDatagram (u32beBytes p.length ++ p ++ rest) cap = some (.ok p, rest)) ∧
      (cap < p.length →
        readDatagram (u32beBytes p.length ++ p ++ rest) cap =
          some (.error .ioShortBuffer, rest)) := by
  intro p rest cap hlen
  have hlt : p.length < 2 ^ 32 := by
    have : MAX_FRAME_BYTES < 2 ^ 32 := by decide
    omega
  have hdec : readU32be (u32beBytes p.length ++ (p ++ rest)) =
      some (p.length, p ++ rest) := readU32be_encode p.length hlt (p ++ rest)
  refine ⟨?_, ?_, ?_⟩
  · simp only [writeDatagram]
    rw [if_neg (by omega), if_neg (by omega)]
  · intro hcap
    simp only [List.append_assoc, readDatagram, hdec]
    rw [if_neg (by omega), if_neg (by omega),
      if_neg (by simp only [List.length_append]; omega)]
    simp
  · intro hcap
    simp only [List.append_assoc, readDatagram, hdec]
    rw [if_neg (by omega), if_pos (by omega),
      if_neg (by simp only [List.length_append]; omega)]
    simp

/-- Claim C6 witness: the two-byte payload `[7, 8]` round-trips through
a capacity-2 read and triggers the short-buffer drain at capacity 1. -/
theorem claim_C6_witness :
    writeDatagram [7, 8] = .ok [0, 0, 0, 2, 7, 8] ∧
    readDatagram [0, 0, 0, 2, 7, 8, 9] 2 = some (.ok [7, 8], [9]) ∧
    readDatagram [0, 0, 0, 2, 7, 8, 9] 1 = some (.error .ioShortBuffer, [9]) :=
  ⟨(claim_C6 [7, 8] [9] 2 (by decide)).1,
   (claim_C6 [7, 8] [9] 2 (by decide)).2.1 (by decide),
   (claim_C6 [7, 8] [9] 1 (by decide)).2.2 (by decide)⟩

/-- The round-robin counter of a route with at least two candidates
advances by one (wrapping at `2^64`) per resolution. -/
theorem rrCounter_eq (cands : List Str) (h2 : 2 ≤ cands.length) :
    ∀ k, rrCounter cands k = k % 2 ^ 64 := by
  intro k
  induction k with
  | zero => rfl
  | succ k ih =>
      simp only [rrCounter, ih, order_candidates]
      rw [if_neg (by omega)]
      simp [Nat.add_mod]

/-- A rotation is a permutation of the candidate list. -/
theorem rotate_perm (v : List Str) (s : Nat) : (rotate v s).Perm v := by
  by_cases hv : v.isEmpty
  · simp [rotate, hv]
  · by_cases hs : s % v.length = 0
    · simp [rotate, hv, hs]
    · have hr : rotate v s = v.drop (s % v.length) ++ v.take (s % v.length) := by
        simp [rotate, hv, hs]
      rw [hr]
      exact List.perm_append_comm.trans (by rw [List.take_append_drop])

/-- Claim C8: with three declared candidates under round-robin and the
counter starting at zero, the k-th resolution returns the declared list
rotated left by `(k-1) mod 3` (for every feasible `k`, i.e. before the
`u64` counter wraps), so the first four resolutions lead with A, B, C, A;
and every returned list is a rotation of, and a permutation of, the
declared candidates. -/
theorem claim_C8 :
    ∀ A B C : Str,
      (∀ k, 1 ≤ k → k ≤ 2 ^ 64 →
        rrNthResolution [A, B, C] k = rotate [A, B, C] ((k - 1) % 3)) ∧
      (rrNthResolution [A, B, C] 1 = [A, B, C] ∧
       rrNthResolution [A, B, C] 2 = [B, C, A] ∧
       rrNthResolution [A, B, C] 3 = [C, A, B] ∧
       rrNthResolution [A, B, C] 4 = [A, B, C]) ∧
      (∀ k, (rrNthResolution [A, B, C] k).Perm [A, B, C] ∧
        ∃ s, rrNthResolution [A, B, C] k = rotate [A, B, C] s) := by
  intro A B C
  have hlen : ([A, B, C] : List Str).length = 3 := rfl
  have hnth : ∀ j, rrNthResolution [A, B, C] j =
      rotate [A, B, C] (rrCounter [A, B, C] (j - 1) % 3) := by
    intro j
    simp only [rrNthResolution, order_candidates, hlen]
    rw [if_neg (by omega)]
  have hk : ∀ k, 1 ≤ k → k ≤ 2 ^ 64 →
      rrNthResolution [A, B, C] k = rotate [A, B, C] ((k - 1) % 3) := by
    intro k h1 h2
    rw [hnth k, rrCounter_eq [A, B, C] (by omega) (k - 1),
      Nat.mod_eq_of_lt (show k - 1 < 2 ^ 64 by omega)]
  refine ⟨hk, ⟨?_, ?_, ?_, ?_⟩, ?_⟩
  · rw [hk 1 (by omega) (by omega)]; rfl
  · rw [hk 2 (by omega) (by omega)]; rfl
  · rw [hk 3 (by omega) (by omega)]; rfl
  · rw [hk 4 (by omega) (by omega)]; rfl
  · intro k
    rw [hnth k]
    exact ⟨rotate_perm _ _, _, rfl⟩

/-- Claim C8 witness: four concrete resolutions over `[a, b, c]`. -/
theorem claim_C8_witness :
    rrNthResolution ["a".data, "b".data, "c".data] 2 =
        rotate ["a".data, "b".data, "c".data] ((2 - 1) % 3) ∧
      rrNthResolution ["a".data, "b".data, "c".data] 4 =
        ["a".data, "b".data, "c".data] :=
  ⟨(claim_C8 "a".data "b".data "c".data).1 2 (by decide) (by norm_num),
   (claim_C8 "a".data "b".data "c".data).2.1.2.2.2⟩

/-- A memory read within bounds yields the requested slice. -/
theorem memRead_some (mem : List Nat) (ptr len : Nat)
    (h : ptr + len ≤ mem.length) :
    memRead mem ptr len = some ((mem.drop ptr).take len) := by
  simp [memRead, h]

/-- The ranges read by the rewrite tail stay within memory when the
already-performed reads did. -/
theorem parseWasmRw_reads_safe (mem : List Nat) (rw_ptr rw_len : Nat)
    (o : MwOutput) (reads : List (Nat × Nat))
    (hr : ∀ r ∈ reads, r.1 + r.2 ≤ mem.length) :
    ∀ r ∈ (parseWasmRet.parseWasmRw mem rw_ptr rw_len o reads).2,
      r.1 + r.2 ≤ mem.length := by
  intro r hmem
  by_cases hpos : rw_len > 0
  · by_cases hov : rw_ptr + rw_len ≥ 2 ^ 64
    · simp only [parseWasmRet.parseWasmRw, if_pos hpos, if_pos hov] at hmem
      exact hr r hmem
    · by_cases hoob : mem.length < rw_ptr + rw_len
      · simp only [parseWasmRet.parseWasmRw, if_pos hpos, if_neg hov,
          if_pos hoob] at hmem
        exact hr r hmem
      · have hle : rw_ptr + rw_len ≤ mem.length := by omega
        simp only [parseWasmRet.parseWasmRw, if_pos hpos, if_neg hov,
          if_neg hoob, memRead_some mem rw_ptr rw_len hle, Option.isNone_some,
          Bool.false_eq_true, and_false, if_false] at hmem
        rcases List.mem_append.mp hmem with h | h
        · exact hr r h
        · rw [List.mem_singleton] at h
          subst h
          exact hle
  · simp only [parseWasmRet.parseWasmRw, if_neg hpos] at hmem
    split at hmem <;> exact hr r hmem

/-- The rewrite tail reports a Fatal error when the rewrite range falls
outside memory. -/
theorem parseWasmRw_fatal (mem : List Nat) (rw_ptr rw_len : Nat)
    (o : MwOutput) (reads : List (Nat × Nat)) (hpos : 0 < rw_len)
    (hoob : mem.length < rw_ptr + rw_len) :
    ∃ msg, (parseWasmRet.parseWasmRw mem rw_ptr rw_len o reads).1 =
      .error (.fatal msg) := by
  by_cases hov : rw_ptr + rw_len ≥ 2 ^ 64
  · exact ⟨"rewrite range overflow",
      by simp only [parseWasmRet.parseWasmRw, if_pos hpos, if_pos hov]⟩
  · exact ⟨"rewrite out of bounds",
      by simp only [parseWasmRet.parseWasmRw, if_pos hpos, if_neg hov,
        if_pos hoob]⟩

/-- Claim C5: the host validates every pointer/length pair returned from
WASM against the current linear-memory size before reading.  Every range
the interpretation reads lies within memory; a packed record whose range
is undersized or out of bounds yields a Fatal error, as does a record
whose host or rewrite range falls outside memory. -/
theorem claim_C5 :
    (∀ (mem : List Nat) (out : Int),
      ∀ r ∈ (parseWasmRet mem out).2, r.1 + r.2 ≤ mem.length) ∧
    (∀ (mem : List Nat) (out : Int) (ptr len : Nat),
      ptr = (out.emod (2 ^ 64)).toNat % 2 ^ 32 →
      len = (out.emod (2 ^ 64)).toNat / 2 ^ 32 →
      out ≠ 0 → out ≠ 1 → out ≠ -1 →
      (len < 16 ∨ mem.length < ptr + len) →
      ∃ msg, (parseWasmRet mem out).1 = .error (.fatal msg)) ∧
    (∀ (mem : List Nat) (out : Int) (ptr len : Nat),
      ptr = (out.emod (2 ^ 64)).toNat % 2 ^ 32 →
      len = (out.emod (2 ^ 64)).toNat / 2 ^ 32 →
      out ≠ 0 → out ≠ 1 → out ≠ -1 →
      16 ≤ len → ptr + len ≤ mem.length →
      ((0 < leU32At ((mem.drop ptr).take 16) 4 ∧
          mem.length < leU32At ((mem.drop ptr).take 16) 0 +
            leU32At ((mem.drop ptr).take 16) 4) ∨
        (¬(0 < leU32At ((mem.drop ptr).take 16) 4 ∧
            mem.length < leU32At ((mem.drop ptr).take 16) 0 +
              leU32At ((mem.drop ptr).take 16) 4) ∧
          0 < leU32At ((mem.drop ptr).take 16) 12 ∧
          mem.length < leU32At ((mem.drop ptr).take 16) 8 +
            leU32At ((mem.drop ptr).take 16) 12)) →
      ∃ msg, (parseWasmRet mem out).1 = .error (.fatal msg)) := by
  refine ⟨?_, ?_, ?_⟩
  · intro mem out r hmem
    by_cases h0 : out = 0
    · simp only [parseWasmRet, if_pos h0] at hmem; exact absurd hmem (by simp)
    by_cases h1 : out = 1
    · simp only [parseWasmRet, if_neg h0, if_pos h1] at hmem
      exact absurd hmem (by simp)
    by_cases hm1 : out = -1
    · simp only [parseWasmRet, if_neg h0, if_neg h1, if_pos hm1] at hmem
      exact absurd hmem (by simp)
    set u : Nat := (out.emod (2 ^ 64)).toNat with hu
    set ptr : Nat := u % 2 ^ 32 with hptr
    set len : Nat := u / 2 ^ 32 with hlen
    by_cases hsmall : len < 16
    · simp only [parseWasmRet, if_neg h0, if_neg h1, if_neg hm1, ← hu, ← hptr,
        ← hlen, if_pos hsmall] at hmem
      exact absurd hmem (by simp)
    by_cases hov : ptr + len ≥ 2 ^ 64
    · simp only [parseWasmRet, if_neg h0, if_neg h1, if_neg hm1, ← hu, ← hptr,
        ← hlen, if_neg hsmall, if_pos hov] at hmem
      exact absurd hmem (by simp)
    by_cases hoob : mem.length < ptr + len
    · simp only [parseWasmRet, if_neg h0, if_neg h1, if_neg hm1, ← hu, ← hptr,
        ← hlen, if_neg hsmall, if_neg hov, if_pos hoob] at hmem
      exact absurd hmem (by simp)
    have h16 : ptr + 16 ≤ mem.length := by omega
    have hrd : memRead mem ptr 16 = some ((mem.drop ptr).take 16) :=
      memRead_some mem ptr 16 h16
    set header : List Nat := (mem.drop ptr).take 16 with hh
    set hp : Nat := leU32At header 0 with hhp
    set hl : Nat := leU32At header 4 with hhl
    set rp : Nat := leU32At header 8 with hrp
    set rl : Nat := leU32At header 12 with hrl
    have hreads0 : ∀ q ∈ [(ptr, 16)], q.1 + q.2 ≤ mem.length := by
      intro q hq
      rw [List.mem_singleton] at hq
      subst hq
      exact h16
    by_cases hhl0 : hl > 0
    · by_cases hhov : hp + hl ≥ 2 ^ 64
      · simp only [parseWasmRet, if_neg h0, if_neg h1, if_neg hm1, ← hu,
          ← hptr, ← hlen, if_neg hsmall, if_neg hov, if_neg hoob, hrd, ← hh,
          ← hhp, ← hhl, ← hrp, ← hrl, if_pos hhl0, if_pos hhov] at hmem
        exact hreads0 r hmem
      · by_cases hhoob : mem.length < hp + hl
        · simp only [parseWasmRet, if_neg h0, if_neg h1, if_neg hm1, ← hu,
            ← hptr, ← hlen, if_neg hsmall, if_neg hov, if_neg hoob, hrd, ← hh,
            ← hhp, ← hhl, ← hrp, ← hrl, if_pos hhl0, if_neg hhov,
            if_pos hhoob] at hmem
          exact hreads0 r hmem
        · have hhle : hp + hl ≤ mem.length := by omega
          simp only [parseWasmRet, if_neg h0, if_neg h1, if_neg hm1, ← hu,
            ← hptr, ← hlen, if_neg hsmall, if_neg hov, if_neg hoob, hrd, ← hh,
            ← hhp, ← hhl, ← hrp, ← hrl, if_pos hhl0, if_neg hhov, if_neg hhoob,
            memRead_some mem hp hl hhle] at hmem
          refine parseWasmRw_reads_safe mem rp rl _ _ ?_ r hmem
          intro q hq
          rcases List.mem_append.mp hq with h | h
          · exact hreads0 q h
          · rw [List.mem_singleton] at h
            subst h
            exact hhle
    · simp only [parseWasmRet, if_neg h0, if_neg h1, if_neg hm1, ← hu, ← hptr,
        ← hlen, if_neg hsmall, if_neg hov, if_neg hoob, hrd, ← hh, ← hhp,
        ← hhl, ← hrp, ← hrl, if_neg hhl0] at hmem
      exact parseWasmRw_reads_safe mem rp rl _ _ hreads0 r hmem
  · intro mem out ptr len hptr hlen h0 h1 hm1 hbad
    by_cases hsmall : len < 16
    · exact ⟨"wasm middleware output too small",
        by simp only [parseWasmRet, if_neg h0, if_neg h1, if_neg hm1,
          ← hptr, ← hlen, if_pos hsmall]⟩
    have hoob : mem.length < ptr + len := by omega
    by_cases hov : ptr + len ≥ 2 ^ 64
    · exact ⟨"wasm output range overflow",
        by simp only [parseWasmRet, if_neg h0, if_neg h1, if_neg hm1,
          ← hptr, ← hlen, if_neg hsmall, if_pos hov]⟩
    · exact ⟨"wasm output out of bounds",
        by simp only [parseWasmRet, if_neg h0, if_neg h1, if_neg hm1,
          ← hptr, ← hlen, if_neg hsmall, if_neg hov, if_pos hoob]⟩
  · intro mem out ptr len hptr hlen h0 h1 hm1 hbig hle hbad
    have hsmall : ¬len < 16 := by omega
    have hoob : ¬mem.length < ptr + len := by omega
    have h16 : ptr + 16 ≤ mem.length := by omega
    have hrd : memRead mem ptr 16 = some ((mem.drop ptr).take 16) :=
      memRead_some mem ptr 16 h16
    by_cases hov : ptr + len ≥ 2 ^ 64
    · exact ⟨"wasm output range overflow",
        by simp only [parseWasmRet, if_neg h0, if_neg h1, if_neg hm1,
          ← hptr, ← hlen, if_neg hsmall, if_pos hov]⟩
    set header : List Nat := (mem.drop ptr).take 16 with hh
    set hp : Nat := leU32At header 0 with hhp
    set hl : Nat := leU32At header 4 with hhl
    set rp : Nat := leU32At header 8 with hrp
    set rl : Nat := leU32At header 12 with hrl
    rcases hbad with ⟨hhl0, hhoob⟩ | ⟨hhostok, hrl0, hroob⟩
    · by_cases hhov : hp + hl ≥ 2 ^ 64
      · exact ⟨"host range overflow",
          by simp only [parseWasmRet, if_neg h0, if_neg h1, if_neg hm1,
            ← hptr, ← hlen, if_neg hsmall, if_neg hov, if_neg hoob, hrd, ← hh,
            ← hhp, ← hhl, ← hrp, ← hrl, if_pos hhl0, if_pos hhov]⟩
      · exact ⟨"host out of bounds",
          by simp only [parseWasmRet, if_neg h0, if_neg h1, if_neg hm1,
            ← hptr, ← hlen, if_neg hsmall, if_neg hov, if_neg hoob, hrd, ← hh,
            ← hhp, ← hhl, ← hrp, ← hrl, if_pos hhl0, if_neg hhov, if_pos hhoob]⟩
    · by_cases hhl0 : hl > 0
      case pos =>
        by_cases hhov : hp + hl ≥ 2 ^ 64
        · exact ⟨"host range overflow",
            by simp only [parseWasmRet, if_neg h0, if_neg h1, if_neg hm1,
              ← hptr, ← hlen, if_neg hsmall, if_neg hov, if_neg hoob, hrd,
              ← hh, ← hhp, ← hhl, ← hrp, ← hrl, if_pos hhl0, if_pos hhov]⟩
        have hhoob : ¬mem.length < hp + hl := by
          intro hcon
          exact hhostok ⟨hhl0, hcon⟩
        have hhle : hp + hl ≤ mem.length := by omega
        obtain ⟨msg, hmsg⟩ := parseWasmRw_fatal mem rp rl
          { host := if (normHost (bytesToChars ((mem.drop hp).take hl))).isEmpty
              then none
              else some (normHost (bytesToChars ((mem.drop hp).take hl))) }
          ([(ptr, 16)] ++ [(hp, hl)]) hrl0 hroob
        refine ⟨msg, ?_⟩
        simp only [parseWasmRet, if_neg h0, if_neg h1, if_neg hm1, ← hptr,
          ← hlen, if_neg hsmall, if_neg hov, if_neg hoob, hrd, ← hh, ← hhp,
          ← hhl, ← hrp, ← hrl, if_pos hhl0, if_neg hhov, if_neg hhoob,
          memRead_some mem hp hl hhle]
        exact hmsg
      · obtain ⟨msg, hmsg⟩ :=
          parseWasmRw_fatal mem rp rl {} [(ptr, 16)] hrl0 hroob
        refine ⟨msg, ?_⟩
        simp only [parseWasmRet, if_neg h0, if_neg h1, if_neg hm1, ← hptr,
          ← hlen, if_neg hsmall, if_neg hov, if_neg hoob, hrd, ← hh, ← hhp,
          ← hhl, ← hrp, ← hrl, if_neg hhl0]
        exact hmsg

/-- Claim C5 witness: a well-formed empty record at offset 0 of a 32-byte
memory is read in bounds, and a record advertising only one byte is
rejected as Fatal. -/
theorem claim_C5_witness :
    ((0, 16) ∈ (parseWasmRet (List.replicate 32 0) 68719476736).2 ∧
      (0 : Nat) + 16 ≤ (List.replicate 32 0 : List Nat).length) ∧
    ∃ msg, (parseWasmRet (List.replicate 32 0) 4294967296).1 =
      .error (.fatal msg) := by
  constructor
  · exact ⟨by decide,
      claim_C5.1 (List.replicate 32 0) 68719476736 (0, 16) (by decide)⟩
  · exact claim_C5.2.1 (List.replicate 32 0) 4294967296 _ _ rfl rfl
      (by decide) (by decide) (by decide) (Or.inl (by decide))

/-- Folding the latest-rewrite accumulator over a cons. -/
theorem lastRewriteFrom_cons (r : Except MwErr MwOutput)
    (rs : List (Except MwErr MwOutput)) (acc : Option (List Nat)) :
    lastRewriteFrom (r :: rs) acc =
      lastRewriteFrom rs
        (match resRewrite r with
         | some rw => some rw
         | none => acc) := rfl

/-- The fused parse loop agrees with the results-then-select description
for every intermediate accumulator state. -/
theorem chainParseGo_spec :
    ∀ (ms : List Middleware) (buf : List Nat) (rw : Option (List Nat))
      (nm : Bool),
      chainParseGo ms buf rw nm =
        match firstHost (mwResults ms buf) with
        | some (i, h) =>
            .ok (h, lastRewriteFrom ((mwResults ms buf).take (i + 1)) rw)
        | none =>
            if nm || (mwResults ms buf).any isNeedMore then .error .needMoreData
            else .error .noMatch := by
  intro ms
  induction ms with
  | nil =>
      intro buf rw nm
      cases nm <;> simp [chainParseGo, mwResults, firstHost]
  | cons m ms ih =>
      intro buf rw nm
      cases hr : m.apply buf MwCtx.parseCtx with
      | ok out =>
          have hstep : stepBuf buf m = out.rewrite.getD buf := by
            simp [stepBuf, hr]
          simp only [chainParseGo, hr, mwResults, hstep]
          cases hh : out.host with
          | some host =>
              dsimp only
              by_cases hemp : (normHost host).isEmpty
              · rw [if_pos hemp, ih]
                have hem : emittedHost (Except.ok out) = none := by
                  simp [emittedHost, hh, hemp]
                simp only [firstHost, hem]
                cases hf : firstHost (mwResults ms (out.rewrite.getD buf)) with
                | some p =>
                    obtain ⟨i, h⟩ := p
                    simp [lastRewriteFrom_cons, resRewrite]
                | none => simp [isNeedMore]
              · rw [if_neg hemp]
                have hem : emittedHost (Except.ok out) = some (normHost host) := by
                  simp [emittedHost, hh, hemp]
                simp [firstHost, hem, lastRewriteFrom_cons, lastRewriteFrom,
                  resRewrite]
          | none =>
              dsimp only
              rw [ih]
              have hem : emittedHost (Except.ok out) = none := by
                simp [emittedHost, hh]
              simp only [firstHost, hem]
              cases hf : firstHost (mwResults ms (out.rewrite.getD buf)) with
              | some p =>
                  obtain ⟨i, h⟩ := p
                  simp [lastRewriteFrom_cons, resRewrite]
              | none => simp [isNeedMore]
      | error e =>
          have hstep : stepBuf buf m = buf := by simp [stepBuf, hr]
          have hem : emittedHost (Except.error e) = none := by
            simp [emittedHost]
          cases e <;>
            · simp only [chainParseGo, hr, mwResults, hstep, ih, firstHost, hem]
              cases hf : firstHost (mwResults ms buf) with
              | some p =>
                  obtain ⟨i, h⟩ := p
                  simp [lastRewriteFrom_cons, resRewrite]
              | none =>
                  simp only [Option.map_none, List.any_cons, isNeedMore]
                  simp

/-- Claim C2: parse-phase chain application returns the first non-empty
trimmed/lowercased host emitted by a module in order together with the
latest rewrite threaded up to that module; a rewrite-only module updates
the buffer and iteration continues; a fatal module counts as a
non-match; with no host the chain returns need-more-data exactly when
some module did, otherwise no-match. -/
theorem claim_C2 :
    ∀ (ms : List Middleware) (prelude : List Nat),
      chainParse ms prelude = chainParseSpec ms prelude := by
  intro ms prelude
  rw [chainParse, chainParseGo_spec, chainParseSpec]
  simp only [Bool.false_or]

/-- The C7 claim's normalization misses the protocol default: a service
with an empty protocol round-trips to `tcp`, not to the empty string the
claim's field list implies.  The concrete codec is injective on the one
request involved. -/
theorem claim_C7_counterexample :
    readRegisterRequest
        (fun _ => some { token := [], services :=
          [{ name := "svc".data, proto := [], local_addr := [],
             route_only := false, remote_addr := [], masquerade_host := [] }] })
        (writeRegisterRequest (fun _ => [])
          { token := [], services :=
            [{ name := "svc".data, proto := [], local_addr := [],
               route_only := false, remote_addr := [], masquerade_host := [] }] }) =
      some (.ok { token := [], services :=
        [{ name := "svc".data, proto := "tcp".data, local_addr := [],
           route_only := false, remote_addr := [], masquerade_host := [] }] }, []) ∧
    ({ token := [], services :=
        [{ name := "svc".data, proto := "tcp".data, local_addr := [],
           route_only := false, remote_addr := [], masquerade_host := [] }] }
      : RegisterRequest) ≠
      { token := [], services :=
        ({ token := [], services :=
          [{ name := "svc".data, proto := [], local_addr := [],
             route_only := false, remote_addr := [], masquerade_host := [] }] }
          : RegisterRequest).services.filterMap specNormalizeClaim } := by
  exact ⟨rfl, by decide⟩

/-- Claim C7 (amended): serializing a register request and reading it
back yields the same request with every service normalized — name
trimmed and empty names dropped, proto trimmed, lowercased and defaulted
to `tcp` when empty, addresses trimmed, masquerade host trimmed and
lowercased, and the remote address cleared when `route_only` — for any
JSON codec that round-trips the request within the 1 MiB frame bound. -/
theorem claim_C7_amended :
    ∀ (enc : RegisterRequest → List Nat)
      (dec : List Nat → Option RegisterRequest)
      (req : RegisterRequest) (rest : List Nat),
      dec (enc req) = some req → (enc req).length ≤ MAX_FRAME_BYTES →
      readRegisterRequest dec (writeRegisterRequest enc req ++ rest) =
        some (.ok { req with
          services := req.services.filterMap RegisteredService.normalize },
          rest) ∧
      ∀ s, RegisteredService.normalize s = specNormalizeAmended s := by
  intro enc dec req rest hdec hlen
  constructor
  · have hlt : (enc req).length < 2 ^ 32 := by
      have : MAX_FRAME_BYTES < 2 ^ 32 := by decide
      omega
    have hmin : min (enc req).length (2 ^ 32 - 1) = (enc req).length :=
      Nat.min_eq_left (by omega)
    have htake : ((enc req) ++ rest).take (enc req).length = enc req := by
      simp
    have hdrop : ((enc req) ++ rest).drop (enc req).length = rest := by
      simp
    simp only [writeRegisterRequest, hmin, MAGIC_REGISTER, List.cons_append,
      List.nil_append, List.append_assoc, readRegisterRequest]
    rw [if_neg (by decide)]
    rw [if_neg (by decide)]
    rw [readU32be_encode (enc req).length hlt (enc req ++ rest)]
    dsimp only
    rw [if_neg (by omega), if_neg (by simp only [List.length_append]; omega)]
    rw [htake, hdrop, hdec]
  · intro s
    by_cases h1 : (trimStr s.name).isEmpty
    · simp [RegisteredService.normalize, specNormalizeAmended, h1]
    · simp [RegisteredService.normalize, specNormalizeAmended, h1]

/-- Claim C7 amended witness: a concrete mixed request (one padded
mixed-case service, one blank-named service, one `route_only` service)
round-trips to its normalized form under a concrete codec. -/
theorem claim_C7_witness :
    readRegisterRequest
        (fun _ => some { token := " t ".data, services :=
          [{ name := "  svc1 ".data, proto := " UDP ".data,
             local_addr := " 127.0.0.1:1 ".data, route_only := false,
             remote_addr := " :2 ".data, masquerade_host := " $1.Edge ".data },
           { name := "   ".data, proto := "tcp".data, local_addr := "x".data,
             route_only := false, remote_addr := [], masquerade_host := [] },
           { name := "svc2".data, proto := [], local_addr := [],
             route_only := true, remote_addr := ":9".data,
             masquerade_host := [] }] })
        (writeRegisterRequest (fun _ => [7])
          { token := " t ".data, services :=
            [{ name := "  svc1 ".data, proto := " UDP ".data,
               local_addr := " 127.0.0.1:1 ".data, route_only := false,
               remote_addr := " :2 ".data, masquerade_host := " $1.Edge ".data },
             { name := "   ".data, proto := "tcp".data, local_addr := "x".data,
               route_only := false, remote_addr := [], masquerade_host := [] },
             { name := "svc2".data, proto := [], local_addr := [],
               route_only := true, remote_addr := ":9".data,
               masquerade_host := [] }] } ++ [9]) =
      some (.ok { token := " t ".data, services :=
        (([{ name := "  svc1 ".data, proto := " UDP ".data,
             local_addr := " 127.0.0.1:1 ".data, route_only := false,
             remote_addr := " :2 ".data, masquerade_host := " $1.Edge ".data },
           { name := "   ".data, proto := "tcp".data, local_addr := "x".data,
             route_only := false, remote_addr := [], masquerade_host := [] },
           { name := "svc2".data, proto := [], local_addr := [],
             route_only := true, remote_addr := ":9".data,
             masquerade_host := [] }] : List RegisteredService).filterMap
          RegisteredService.normalize) }, [9]) :=
  (claim_C7_amended _ _ _ [9] rfl (by decide)).1

/-- A successful wildcard match yields exactly one capture group per
`*`/`?` of the compiled pattern, at every fuel level. -/
theorem wildMatchF_groups :
    ∀ (f : Nat) (toks : List WildTok) (s : Str) (gs : List Str),
      wildMatchF f toks s = some gs → gs.length = numGroups toks := by
  intro f
  induction f with
  | zero => intro toks s gs h; exact absurd h (by simp [wildMatchF])
  | succ f ih =>
      intro toks s gs h
      match toks with
      | [] =>
          simp only [wildMatchF] at h
          split at h
          · cases h; rfl
          · exact absurd h (by simp)
      | .lit c :: ts =>
          simp only [wildMatchF] at h
          match s with
          | [] => exact absurd h (by simp)
          | x :: xs =>
              simp only at h
              split at h
              · exact ih ts xs gs h
              · exact absurd h (by simp)
      | .que :: ts =>
          simp only [wildMatchF] at h
          match s with
          | [] => exact absurd h (by simp)
          | x :: xs =>
              simp only [Option.map_eq_some'] at h
              obtain ⟨gs', hgs', rfl⟩ := h
              simp [numGroups, ih ts xs gs' hgs']
      | .star :: ts =>
          simp only [wildMatchF] at h
          cases h0 : wildMatchF f ts s with
          | some gs' =>
              rw [h0] at h
              cases h
              simp [numGroups, ih ts s gs' h0]
          | none =>
              rw [h0] at h
              match s with
              | [] => exact absurd h (by simp)
              | x :: xs =>
                  simp only at h
                  cases h1 : wildMatchF f (.star :: ts) xs with
                  | some gs2 =>
                      rw [h1] at h
                      match gs2, h with
                      | g :: gs2, h =>
                          cases h
                          have := ih (.star :: ts) xs (g :: gs2) h1
                          simpa [numGroups] using this
                  | none => rw [h1] at h; exact absurd h (by simp)

/-- The sequential strategy never reorders and never touches the
counter. -/
theorem order_sequential (rnd rr : Nat) (cands : List Str) :
    order_candidates .sequential rnd rr cands = (cands, rr) := by
  by_cases h : cands.length ≤ 1 <;> simp [order_candidates, h]

/-- Substituting into the empty template yields the empty template. -/
theorem substDesc_nil (gs : List Str) : ∀ j, substDesc gs j [] = [] := by
  intro j
  induction j with
  | zero => rfl
  | succ j ih => simp only [substDesc, replaceAll, dollarTok]; exact ih

/-- The source substitution fold equals the highest-index-down
description. -/
theorem subst_eq_highDown (t : Str) (gs : List Str) :
    substitute_params t gs = substSpecHighDown t gs := by
  by_cases ht : t.isEmpty
  · have ht' : t = [] := by simpa [List.isEmpty_iff] using ht
    subst ht'
    simp [substitute_params, substSpecHighDown, substDesc_nil]
  · by_cases hg : gs.isEmpty
    · have hg' : gs = [] := by simpa [List.isEmpty_iff] using hg
      subst hg'
      simp [substitute_params, substSpecHighDown, substDesc]
    · simp only [substitute_params, ht, hg, Bool.false_or, if_neg,
        Bool.or_self, substSpecHighDown]
      rw [if_neg (by simp [ht, hg])]
      have main : ∀ (k : Nat) (t0 : Str),
          (List.range k).reverse.foldl
            (fun res i => replaceAll res (dollarTok (i + 1)) (gs.getD i []))
            t0 = substDesc gs k t0 := by
        intro k
        induction k with
        | zero => intro t0; rfl
        | succ k ih =>
            intro t0
            rw [List.range_succ, List.reverse_append, List.reverse_singleton,
              List.singleton_append, List.foldl_cons, ih, substDesc]
      exact main gs.length t

/-- Claim C3: a host matching a compiled wildcard pattern resolves to the
route's templates with the matched groups substituted (`$j` replaced by
the j-th group, from the highest index down, so `$10` is handled before
`$1`), the number of groups being the number of `*`/`?` in the
pattern. -/
theorem claim_C3 :
    ∀ (pat h : Str) (gs : List Str) (ups : List Str) (mw : List Middleware),
      normHost h = h → ¬h.isEmpty →
      wildMatch (compileWildcard pat) h = some gs →
      (resolve_route_for_host
          { patterns := [{ pattern := lowerAscii (trimStr pat), exact := false,
                           re := some (compileWildcard pat) }],
            upstreams := ups, strategy := .sequential, rr := 0, rnd := 0,
            middleware := mw } h =
        some { host := h,
               upstreams := ups.map (fun t => substitute_params t gs),
               matched_host := lowerAscii (trimStr pat), captures := gs,
               middleware := mw, prelude_override := none }) ∧
      gs.length = numGroups (compileWildcard pat) ∧
      (∀ t, substitute_params t gs = substSpecHighDown t gs) := by
  intro pat h gs ups mw hn hne hw
  refine ⟨?_, wildMatchF_groups _ _ _ _ hw, fun t => subst_eq_highDown t gs⟩
  simp only [resolve_route_for_host, hn, routePatternLoop, match_host,
    Bool.false_eq_true, if_false, hw, order_sequential]
  rw [if_neg hne]
  simp

/-- Claim C3 witness: `*.labs.example.com` with template
`$1.backend:25565` resolves host `play.labs.example.com` to
`play.backend:25565` with capture `play`. -/
theorem claim_C3_witness :
    resolve_route_for_host
        { patterns := [{ pattern := "*.labs.example.com".data, exact := false,
                         re := some (compileWildcard "*.labs.example.com".data) }],
          upstreams := ["$1.backend:25565".data], strategy := .sequential,
          rr := 0, rnd := 0, middleware := [] }
        "play.labs.example.com".data =
      some { host := "play.labs.example.com".data,
             upstreams := ["play.backend:25565".data],
             matched_host := "*.labs.example.com".data,
             captures := ["play".data], middleware := [],
             prelude_override := none } := by
  have hm := (claim_C3 "*.labs.example.com".data "play.labs.example.com".data
    ["play".data] ["$1.backend:25565".data] [] (by decide) (by decide)
    (by decide)).1
  exact hm

section AssocLemmas

variable {α : Type}

theorem aget_aset_self (k : Str) (v : α) (l : List (Str × α)) :
    aget k (aset k v l) = some v := by
  induction l with
  | nil => simp [aset, aget]
  | cons kv t ih =>
      obtain ⟨a, b⟩ := kv
      by_cases h : a = k
      · simp [aset, h, aget]
      · simp [aset, h, aget, ih]

theorem aget_aset_ne (k k' : Str) (v : α) (l : List (Str × α))
    (h : k' ≠ k) : aget k' (aset k v l) = aget k' l := by
  induction l with
  | nil =>
      simp only [aset, aget]
      rw [if_neg (show ¬k = k' from fun hc => h hc.symm)]
  | cons kv t ih =>
      obtain ⟨a, b⟩ := kv
      by_cases hk : a = k
      · have h1 : aset k v ((a, b) :: t) = (k, v) :: t := by
          simp [aset, hk]
        rw [h1]
        simp only [aget]
        rw [if_neg (show ¬k = k' from fun hc => h hc.symm),
          if_neg (show ¬a = k' from fun hc => h (hk ▸ hc).symm)]
      · simp only [aset, if_neg hk, aget]
        by_cases hk' : a = k' <;> simp [hk', ih]

theorem aget_adel_self (k : Str) (l : List (Str × α)) :
    aget k (adel k l) = none := by
  induction l with
  | nil => simp [adel, aget]
  | cons kv t ih =>
      obtain ⟨a, b⟩ := kv
      by_cases h : a = k
      · simp [adel, h, ih]
      · simp [adel, h, aget, ih]

theorem aget_adel_ne (k k' : Str) (l : List (Str × α)) (h : k' ≠ k) :
    aget k' (adel k l) = aget k' l := by
  induction l with
  | nil => simp [adel]
  | cons kv t ih =>
      obtain ⟨a, b⟩ := kv
      by_cases hk : a = k
      · have hne : ¬a = k' := by rw [hk]; exact fun hc => h hc.symm
        simp only [adel, if_pos hk, ih, aget, if_neg hne]
      · simp only [adel, if_neg hk, aget]
        by_cases hk' : a = k' <;> simp [hk', ih]

theorem mem_of_aget (k : Str) (v : α) (l : List (Str × α))
    (h : aget k l = some v) : (k, v) ∈ l := by
  induction l with
  | nil => simp [aget] at h
  | cons kv t ih =>
      obtain ⟨a, b⟩ := kv
      by_cases hk : a = k
      · simp only [aget, if_pos hk] at h
        cases h
        subst hk
        exact List.mem_cons_self _ _
      · simp only [aget, if_neg hk] at h
        exact List.mem_cons_of_mem _ (ih h)

theorem aget_of_mem_nodup (k : Str) (v : α) (l : List (Str × α))
    (hnd : (l.map Prod.fst).Nodup) (h : (k, v) ∈ l) : aget k l = some v := by
  induction l with
  | nil => simp at h
  | cons kv t ih =>
      obtain ⟨a, b⟩ := kv
      simp only [List.map_cons, List.nodup_cons] at hnd
      rcases List.mem_cons.mp h with h | h
      · cases h
        simp [aget]
      · have hk : ¬a = k := by
          intro hc
          exact hnd.1 (hc ▸ (List.mem_map.mpr ⟨(k, v), h, rfl⟩))
        simp only [aget, if_neg hk]
        exact ih hnd.2 h

theorem aget_isSome_mem_keys (k : Str) (l : List (Str × α))
    (h : (aget k l).isSome) : k ∈ l.map Prod.fst := by
  induction l with
  | nil => simp [aget] at h
  | cons kv t ih =>
      obtain ⟨a, b⟩ := kv
      by_cases hk : a = k
      · exact List.mem_map.mpr ⟨(a, b), List.mem_cons_self _ _, hk⟩
      · simp only [aget, if_neg hk] at h
        simp only [List.map_cons]
        exact List.mem_cons_of_mem _ (ih h)

theorem aget_isSome_of_mem_keys (k : Str) (l : List (Str × α))
    (h : k ∈ l.map Prod.fst) : (aget k l).isSome := by
  induction l with
  | nil => simp at h
  | cons kv t ih =>
      obtain ⟨a, b⟩ := kv
      by_cases hk : a = k
      · simp [aget, hk]
      · simp only [List.map_cons, List.mem_cons] at h
        rcases h with h | h
        · exact absurd h.symm hk
        · simp only [aget, if_neg hk]
          exact ih h

theorem mem_keys_aset (q k : Str) (v : α) (l : List (Str × α)) :
    q ∈ (aset k v l).map Prod.fst ↔ q = k ∨ q ∈ l.map Prod.fst := by
  induction l with
  | nil => simp [aset]
  | cons kv t ih =>
      obtain ⟨a, b⟩ := kv
      by_cases hk : a = k
      · have h1 : aset k v ((a, b) :: t) = (k, v) :: t := by
          simp [aset, hk]
        rw [h1]
        simp only [List.map_cons, List.mem_cons]
        constructor
        · rintro (h | h)
          · exact Or.inl h
          · exact Or.inr (Or.inr h)
        · rintro (h | h | h)
          · exact Or.inl h
          · exact Or.inl (hk ▸ h)
          · exact Or.inr h
      · simp only [aset, if_neg hk, List.map_cons, List.mem_cons, ih]
        constructor
        · rintro (h | h | h)
          · exact Or.inr (Or.inl h)
          · exact Or.inl h
          · exact Or.inr (Or.inr h)
        · rintro (h | h | h)
          · exact Or.inr (Or.inl h)
          · exact Or.inl h
          · exact Or.inr (Or.inr h)

theorem nodup_keys_aset (k : Str) (v : α) (l : List (Str × α))
    (h : (l.map Prod.fst).Nodup) : ((aset k v l).map Prod.fst).Nodup := by
  induction l with
  | nil => simp [aset]
  | cons kv t ih =>
      obtain ⟨a, b⟩ := kv
      simp only [List.map_cons, List.nodup_cons] at h
      by_cases hk : a = k
      · have h1 : aset k v ((a, b) :: t) = (k, v) :: t := by
          simp [aset, hk]
        rw [h1]
        simp only [List.map_cons, List.nodup_cons]
        exact ⟨hk ▸ h.1, h.2⟩
      · simp only [aset, if_neg hk, List.map_cons, List.nodup_cons]
        refine ⟨?_, ih h.2⟩
        intro hc
        rcases (mem_keys_aset a k v t).mp hc with hc | hc
        · exact hk hc
        · exact h.1 hc

theorem keys_adel_sublist (k : Str) (l : List (Str × α)) :
    ((adel k l).map Prod.fst).Sublist (l.map Prod.fst) := by
  induction l with
  | nil => simp [adel]
  | cons kv t ih =>
      obtain ⟨a, b⟩ := kv
      by_cases hk : a = k
      · simp only [adel, if_pos hk, List.map_cons]
        exact ih.trans (List.sublist_cons_self _ _)
      · simp only [adel, if_neg hk, List.map_cons]
        exact ih.cons₂ _

theorem nodup_keys_adel (k : Str) (l : List (Str × α))
    (h : (l.map Prod.fst).Nodup) : ((adel k l).map Prod.fst).Nodup :=
  h.sublist (keys_adel_sublist k l)

theorem mem_of_mem_adel (k : Str) (kv : Str × α) (l : List (Str × α))
    (h : kv ∈ adel k l) : kv ∈ l := by
  induction l with
  | nil => simp [adel] at h
  | cons kv0 t ih =>
      obtain ⟨a, b⟩ := kv0
      by_cases hk : a = k
      · simp only [adel, if_pos hk] at h
        exact List.mem_cons_of_mem _ (ih h)
      · simp only [adel, if_neg hk, List.mem_cons] at h
        rcases h with h | h
        · exact h ▸ List.mem_cons_self _ _
        · exact List.mem_cons_of_mem _ (ih h)

theorem mem_aset (k : Str) (v : α) (kv : Str × α) (l : List (Str × α))
    (h : kv ∈ aset k v l) : kv = (k, v) ∨ kv ∈ l := by
  induction l with
  | nil => simpa [aset] using h
  | cons kv0 t ih =>
      obtain ⟨a, b⟩ := kv0
      by_cases hk : a = k
      · simp only [aset, if_pos hk, List.mem_cons] at h
        rcases h with h | h
        · exact Or.inl h
        · exact Or.inr (List.mem_cons_of_mem _ h)
      · simp only [aset, if_neg hk, List.mem_cons] at h
        rcases h with h | h
        · exact Or.inr (h ▸ List.mem_cons_self _ _)
        · rcases ih h with h | h
          · exact Or.inl h
          · exact Or.inr (List.mem_cons_of_mem _ h)

end AssocLemmas

/-- Characterization of the election fold of `promote_primary_locked`:
a `none` result means no provider (and an empty accumulator), and a
`some` result is either a providing entry of the list or the
accumulator, minimal among all providers and not above the
accumulator. -/
theorem chooseFold_spec :
    ∀ (cs : List (Str × ClientConn)) (name : Str) (acc : Option (Str × Nat)),
      (cs.foldl (chooseStep name) acc = none →
        acc = none ∧ ∀ kv ∈ cs, ¬providesName kv.2 name) ∧
      (∀ cid t, cs.foldl (chooseStep name) acc = some (cid, t) →
        ((∃ c, (cid, c) ∈ cs ∧ c.started = t ∧ providesName c name) ∨
          acc = some (cid, t)) ∧
        (∀ kv ∈ cs, providesName kv.2 name → t ≤ kv.2.started) ∧
        (∀ cid' t', acc = some (cid', t') → t ≤ t')) := by
  intro cs
  induction cs with
  | nil =>
      intro name acc
      constructor
      · intro h
        exact ⟨h, by simp⟩
      · intro cid t h
        simp only [List.foldl_nil] at h
        refine ⟨Or.inr h, by simp, ?_⟩
        intro cid' t' h'
        rw [h] at h'
        cases h'
        exact le_refl t
  | cons kv cs ih =>
      intro name acc
      have hstep : ((kv :: cs).foldl (chooseStep name) acc) =
          cs.foldl (chooseStep name) (chooseStep name acc kv) := by
        simp [List.foldl_cons]
      have hsome_of_provides : providesName kv.2 name →
          ∀ acc0, chooseStep name acc0 kv ≠ none := by
        intro hp acc0
        cases acc0 with
        | none => simp [chooseStep, hp]
        | some c =>
            simp only [chooseStep, if_pos hp]
            split <;> simp
      have hnone_acc : chooseStep name acc kv = none → acc = none := by
        intro h0
        by_cases hp : providesName kv.2 name
        · exact absurd h0 (hsome_of_provides hp acc)
        · simpa [chooseStep, hp] using h0
      constructor
      · intro h
        rw [hstep] at h
        obtain ⟨hacc', hnone⟩ := (ih name (chooseStep name acc kv)).1 h
        by_cases hp : providesName kv.2 name
        · exact absurd hacc' (hsome_of_provides hp acc)
        · refine ⟨hnone_acc hacc', ?_⟩
          intro kv' hkv'
          rcases List.mem_cons.mp hkv' with h' | h'
          · rw [h']; exact hp
          · exact hnone kv' h'
      · intro cid t h
        rw [hstep] at h
        obtain ⟨hsrc, hmin, hacc⟩ := (ih name (chooseStep name acc kv)).2 cid t h
        have hstep2 : ∀ u, chooseStep name acc kv = some u →
            (u = (kv.1, kv.2.started) ∧ providesName kv.2 name) ∨
              acc = some u := by
          intro u hu
          by_cases hp : providesName kv.2 name
          · cases acc with
            | none =>
                simp only [chooseStep, if_pos hp] at hu
                cases hu
                exact Or.inl ⟨rfl, hp⟩
            | some c =>
                simp only [chooseStep, if_pos hp] at hu
                split at hu
                · cases hu; exact Or.inl ⟨rfl, hp⟩
                · exact Or.inr hu
          · simp only [chooseStep, if_neg hp] at hu
            exact Or.inr hu
        have hstep_le : providesName kv.2 name →
            ∀ u, chooseStep name acc kv = some u → u.2 ≤ kv.2.started := by
          intro hp u hu
          cases acc with
          | none =>
              simp only [chooseStep, if_pos hp] at hu
              cases hu
              exact le_refl _
          | some c =>
              simp only [chooseStep, if_pos hp] at hu
              split at hu
              · cases hu; exact le_refl _
              · cases hu; omega
        have hstep_acc : ∀ c', acc = some c' →
            ∀ u, chooseStep name acc kv = some u → u.2 ≤ c'.2 := by
          intro c' hc' u hu
          subst hc'
          by_cases hp : providesName kv.2 name
          · simp only [chooseStep, if_pos hp] at hu
            split at hu
            · cases hu; omega
            · cases hu; exact le_refl _
          · simp only [chooseStep, if_neg hp] at hu
            cases hu
            exact le_refl _
        refine ⟨?_, ?_, ?_⟩
        · rcases hsrc with ⟨c, hc, hct, hcp⟩ | hacc'
          · exact Or.inl ⟨c, List.mem_cons_of_mem _ hc, hct, hcp⟩
          · rcases hstep2 _ hacc' with ⟨he, hp⟩ | hu
            · simp only [Prod.mk.injEq] at he
              obtain ⟨h1, h2⟩ := he
              subst h1
              subst h2
              exact Or.inl ⟨kv.2, List.mem_cons_self _ _, rfl, hp⟩
            · exact Or.inr hu
        · intro kv' hkv' hp'
          rcases List.mem_cons.mp hkv' with h' | h'
          · have hp : providesName kv.2 name := h' ▸ hp'
            cases hacc' : chooseStep name acc kv with
            | none => exact absurd hacc' (hsome_of_provides hp acc)
            | some u =>
                have h2 : t ≤ u.2 := hacc u.1 u.2 (by rw [hacc'])
                have h3 : u.2 ≤ kv.2.started := hstep_le hp u hacc'
                have h4 : kv.2.started = kv'.2.started := by rw [h']
                omega
          · exact hmin kv' h' hp'
        · intro cid' t' h'
          cases hacc' : chooseStep name acc kv with
          | none =>
              rw [hnone_acc hacc'] at h'
              exact absurd h' (by simp)
          | some u =>
              have h2 : t ≤ u.2 := hacc u.1 u.2 (by rw [hacc'])
              have h3 : u.2 ≤ t' := hstep_acc (cid', t') h' u hacc'
              omega

/-- Unfolding the re-election loop by one name. -/
theorem reelect_cons (st : MgrState) (n : Str) (rest : List Str) (id : Str) :
    reelect st (n :: rest) id = reelect (reelectStep id st n) rest id := rfl

/-- Promotion leaves other services' primary entries untouched. -/
theorem promote_aget_ne (C : List (Str × ClientConn)) (pr : List (Str × Str))
    (name n : Str) (h : n ≠ name) :
    aget n (promotePrimary C pr name) = aget n pr := by
  unfold promotePrimary
  cases chooseMin C name with
  | some c => exact aget_aset_ne name n c.1 pr h
  | none => rfl

/-- A re-election step never touches the clients map. -/
theorem reelectStep_clients (id : Str) (st : MgrState) (n : Str) :
    (reelectStep id st n).clients = st.clients := by
  unfold reelectStep
  split <;> rfl

/-- Re-election never touches the clients map. -/
theorem reelect_clients (st : MgrState) (names : List Str) (id : Str) :
    (reelect st names id).clients = st.clients := by
  induction names generalizing st with
  | nil => rfl
  | cons n rest ih =>
      rw [reelect_cons, ih, reelectStep_clients]

/-- Re-election leaves entries not owned by the departing client
untouched. -/
theorem reelect_pres (id name : Str) :
    ∀ (names : List Str) (st : MgrState),
      aget name st.primary ≠ some id →
      aget name (reelect st names id).primary = aget name st.primary := by
  intro names
  induction names with
  | nil => intro st h; rfl
  | cons n rest ih =>
      intro st h
      rw [reelect_cons]
      by_cases hg : aget n st.primary = some id
      · have hne : n ≠ name := by
          intro hc
          exact h (hc ▸ hg)
        have hne' : name ≠ n := fun hc => hne hc.symm
        have h1 : aget name (reelectStep id st n).primary =
            aget name st.primary := by
          simp only [reelectStep, if_pos hg]
          rw [promote_aget_ne _ _ _ _ hne', aget_adel_ne n name _ hne']
        rw [ih _ (h1 ▸ h), h1]
      · have h1 : reelectStep id st n = st := by
          simp [reelectStep, hg]
        rw [h1]
        exact ih st h

/-- After re-electing every service owned by the departed client `id`
(absent from `C`), every primary entry again names a surviving provider,
and every provided service has an entry. -/
theorem reelect_inv :
    ∀ (todo : List Str) (C : List (Str × ClientConn)) (pr : List (Str × Str))
      (id : Str),
      (C.map Prod.fst).Nodup →
      aget id C = none →
      (∀ n cid, aget n pr = some cid → cid ≠ id →
        ∃ c, aget cid C = some c ∧ providesName c n) →
      (∀ n kv, kv ∈ C → providesName kv.2 n → (aget n pr).isSome) →
      (∀ n, aget n pr = some id → n ∈ todo) →
      (∀ n cid, aget n (reelect ⟨C, pr⟩ todo id).primary = some cid →
        ∃ c, aget cid C = some c ∧ providesName c n) ∧
      (∀ n kv, kv ∈ C → providesName kv.2 n →
        (aget n (reelect ⟨C, pr⟩ todo id).primary).isSome) := by
  intro todo
  induction todo with
  | nil =>
      intro C pr id hnd hidC h2 h3 h4
      constructor
      · intro n cid hn
        by_cases hcid : cid = id
        · exact absurd (h4 n (hcid ▸ hn)) (by simp)
        · exact h2 n cid hn hcid
      · intro n kv hkv hp
        exact h3 n kv hkv hp
  | cons n₀ rest ih =>
      intro C pr id hnd hidC h2 h3 h4
      rw [reelect_cons]
      by_cases hg : aget n₀ ((⟨C, pr⟩ : MgrState)).primary = some id
      · have hstep : reelectStep id ⟨C, pr⟩ n₀ =
            ⟨C, promotePrimary C (adel n₀ pr) n₀⟩ := by
          simp [reelectStep, hg]
        rw [hstep]
        set pr₁ := promotePrimary C (adel n₀ pr) n₀ with hpr₁
        have hch := chooseFold_spec C n₀ none
        refine ih C pr₁ id hnd hidC ?_ ?_ ?_
        · intro n cid hn hcid
          by_cases hnn : n = n₀
          · subst hnn
            cases hcm : chooseMin C n with
            | none =>
                rw [hpr₁] at hn
                unfold promotePrimary at hn
                rw [hcm] at hn
                rw [aget_adel_self] at hn
                exact absurd hn (by simp)
            | some u =>
                rw [hpr₁] at hn
                unfold promotePrimary at hn
                rw [hcm] at hn
                rw [aget_aset_self] at hn
                cases hn
                obtain ⟨hsrc, hmin, _⟩ := hch.2 u.1 u.2 hcm
                rcases hsrc with ⟨c, hc, hct, hcp⟩ | habs
                · exact ⟨c, aget_of_mem_nodup _ _ _ hnd hc, hcp⟩
                · exact absurd habs (by simp)
          · have hn' : aget n pr = some cid := by
              rw [hpr₁, promote_aget_ne _ _ _ _ hnn,
                aget_adel_ne n₀ n _ hnn] at hn
              exact hn
            exact h2 n cid hn' hcid
        · intro n kv hkv hp
          by_cases hnn : n = n₀
          · subst hnn
            cases hcm : chooseMin C n with
            | none =>
                obtain ⟨_, hnop⟩ := hch.1 hcm
                exact absurd hp (hnop kv hkv)
            | some u =>
                rw [hpr₁]
                unfold promotePrimary
                rw [hcm, aget_aset_self]
                rfl
          · rw [hpr₁, promote_aget_ne _ _ _ _ hnn, aget_adel_ne n₀ n _ hnn]
            exact h3 n kv hkv hp
        · intro n hn
          by_cases hnn : n = n₀
          · subst hnn
            cases hcm : chooseMin C n with
            | none =>
                rw [hpr₁] at hn
                unfold promotePrimary at hn
                rw [hcm, aget_adel_self] at hn
                exact absurd hn (by simp)
            | some u =>
                rw [hpr₁] at hn
                unfold promotePrimary at hn
                rw [hcm, aget_aset_self] at hn
                cases hn
                obtain ⟨hsrc, _, _⟩ := hch.2 u.1 u.2 hcm
                rcases hsrc with ⟨c, hc, _, _⟩ | habs
                · have : aget u.1 C = some c := aget_of_mem_nodup _ _ _ hnd hc
                  rw [hidC] at this
                  exact absurd this (by simp)
                · exact absurd habs (by simp)
          · have hn' : aget n pr = some id := by
              rw [hpr₁, promote_aget_ne _ _ _ _ hnn,
                aget_adel_ne n₀ n _ hnn] at hn
              exact hn
            rcases List.mem_cons.mp (h4 n hn') with h | h
            · exact absurd h hnn
            · exact h
      · have hstep : reelectStep id ⟨C, pr⟩ n₀ = ⟨C, pr⟩ := by
          simp [reelectStep, hg]
        rw [hstep]
        refine ih C pr id hnd hidC h2 h3 ?_
        intro n hn
        rcases List.mem_cons.mp (h4 n hn) with h | h
        · subst h
          exact absurd hn hg
        · exact h

/-- When the departed client owned `name` and a surviving provider
exists, re-election hands `name` to a surviving provider with the oldest
`started` timestamp. -/
theorem reelect_target :
    ∀ (todo : List Str) (C : List (Str × ClientConn)) (pr : List (Str × Str))
      (id name : Str),
      (C.map Prod.fst).Nodup →
      aget id C = none →
      name ∈ todo →
      aget name pr = some id →
      (∃ kv, kv ∈ C ∧ providesName kv.2 name) →
      ∃ cid c, aget name (reelect ⟨C, pr⟩ todo id).primary = some cid ∧
        aget cid C = some c ∧ providesName c name ∧
        ∀ kv ∈ C, providesName kv.2 name → c.started ≤ kv.2.started := by
  intro todo
  induction todo with
  | nil => intro C pr id name _ _ hmem; simp at hmem
  | cons n₀ rest ih =>
      intro C pr id name hnd hidC hmem hown hprov
      rw [reelect_cons]
      by_cases hnn : n₀ = name
      · subst hnn
        have hg : aget n₀ ((⟨C, pr⟩ : MgrState)).primary = some id := hown
        have hstep : reelectStep id ⟨C, pr⟩ n₀ =
            ⟨C, promotePrimary C (adel n₀ pr) n₀⟩ := by
          simp [reelectStep, hg]
        rw [hstep]
        have hch := chooseFold_spec C n₀ none
        cases hcm : chooseMin C n₀ with
        | none =>
            obtain ⟨_, hnop⟩ := hch.1 hcm
            obtain ⟨kv, hkv, hp⟩ := hprov
            exact absurd hp (hnop kv hkv)
        | some u =>
            obtain ⟨hsrc, hmin, _⟩ := hch.2 u.1 u.2 hcm
            rcases hsrc with ⟨c, hc, hct, hcp⟩ | habs
            · have hgetc : aget u.1 C = some c :=
                aget_of_mem_nodup _ _ _ hnd hc
              have hne_id : u.1 ≠ id := by
                intro hcon
                rw [hcon, hidC] at hgetc
                exact absurd hgetc (by simp)
              have hself : aget n₀ (promotePrimary C (adel n₀ pr) n₀) =
                  some u.1 := by
                unfold promotePrimary
                rw [hcm, aget_aset_self]
              have hpres := reelect_pres id n₀ rest
                ⟨C, promotePrimary C (adel n₀ pr) n₀⟩
                (by rw [hself]; intro hcon; exact hne_id (by injection hcon))
              refine ⟨u.1, c, ?_, hgetc, hcp, ?_⟩
              · rw [hpres, hself]
              · intro kv hkv hp
                have := hmin kv hkv hp
                omega
            · exact absurd habs (by simp)
      · have hname_ne : name ≠ n₀ := fun hc => hnn hc.symm
        have hpr' : aget name (reelectStep id ⟨C, pr⟩ n₀).primary =
            some id := by
          unfold reelectStep
          split
          · simp only
            rw [promote_aget_ne _ _ _ _ hname_ne,
              aget_adel_ne n₀ name _ hname_ne]
            exact hown
          · exact hown
        have hmem' : name ∈ rest := by
          rcases List.mem_cons.mp hmem with h | h
          · exact absurd h.symm hnn
          · exact h
        have hst : reelectStep id ⟨C, pr⟩ n₀ =
            ⟨C, (reelectStep id ⟨C, pr⟩ n₀).primary⟩ := by
          have h1 := reelectStep_clients id ⟨C, pr⟩ n₀
          calc reelectStep id ⟨C, pr⟩ n₀
              = ⟨(reelectStep id ⟨C, pr⟩ n₀).clients,
                 (reelectStep id ⟨C, pr⟩ n₀).primary⟩ := rfl
            _ = ⟨C, (reelectStep id ⟨C, pr⟩ n₀).primary⟩ := by rw [h1]
        rw [hst]
        exact ih C (reelectStep id ⟨C, pr⟩ n₀).primary id name hnd hidC
          hmem' hpr' hprov

/-- The first-writer-wins insertion loop of `register_client`
(manager.rs:122-125): an existing entry is kept, a missing entry is set
to the new client for exactly the listed service names. -/
theorem orInsert_aget (id : Str) :
    ∀ (entries : List (Str × RegisteredService)) (pr : List (Str × Str))
      (n : Str),
      aget n (entries.foldl
        (fun pr kv =>
          match aget kv.1 pr with
          | some _ => pr
          | none => aset kv.1 id pr) pr) =
      match aget n pr with
      | some v => some v
      | none => if n ∈ entries.map Prod.fst then some id else none := by
  intro entries
  induction entries with
  | nil =>
      intro pr n
      simp only [List.foldl_nil, List.map_nil, List.not_mem_nil, if_false]
      cases aget n pr <;> rfl
  | cons kv rest ih =>
      intro pr n
      simp only [List.foldl_cons, List.map_cons, List.mem_cons]
      cases hk1 : aget kv.1 pr with
      | some w =>
          dsimp only
          rw [ih pr n]
          cases hn : aget n pr with
          | some v => rfl
          | none =>
              simp only
              have hne : ¬n = kv.1 := by
                intro hc
                rw [hc, hk1] at hn
                exact absurd hn (by simp)
              by_cases hmem : n ∈ rest.map Prod.fst
              · rw [if_pos hmem, if_pos (Or.inr hmem)]
              · rw [if_neg hmem, if_neg ?_]
                rintro (hcl | hcl)
                · exact hne hcl
                · exact hmem hcl
      | none =>
          dsimp only
          rw [ih (aset kv.1 id pr) n]
          by_cases heq : n = kv.1
          · have h1 : aget n (aset kv.1 id pr) = some id := by
              rw [heq]; exact aget_aset_self kv.1 id pr
            have h2 : aget n pr = none := by rw [heq]; exact hk1
            rw [h1, h2]
            simp only
            rw [if_pos (Or.inl heq)]
          · have h1 : aget n (aset kv.1 id pr) = aget n pr :=
              aget_aset_ne kv.1 n id pr heq
            rw [h1]
            cases hn : aget n pr with
            | some v => rfl
            | none =>
                simp only
                by_cases hmem : n ∈ rest.map Prod.fst
                · rw [if_pos hmem, if_pos (Or.inr hmem)]
                · rw [if_neg hmem, if_neg ?_]
                  rintro (hcl | hcl)
                  · exact heq hcl
                  · exact hmem hcl

/-- Removing a client and re-electing every service it owned restores
the registry invariant. -/
theorem remove_reelect_inv (st : MgrState) (id : Str) (old : ClientConn)
    (h : MgrInv st) (hc : aget id st.clients = some old) :
    MgrInv (reelect { st with clients := adel id st.clients }
      (old.services.map Prod.fst) id) ∧
    (reelect { st with clients := adel id st.clients }
      (old.services.map Prod.fst) id).clients = adel id st.clients := by
  obtain ⟨hnd, hpart1, hpart2⟩ := h
  have hcl : (reelect { st with clients := adel id st.clients }
      (old.services.map Prod.fst) id).clients = adel id st.clients :=
    reelect_clients _ _ _
  have hri := reelect_inv (old.services.map Prod.fst) (adel id st.clients)
    st.primary id (nodup_keys_adel id st.clients hnd)
    (aget_adel_self id st.clients)
    (by
      intro n cid hn hne
      obtain ⟨c, hcc, hcp⟩ := hpart1 n cid hn
      exact ⟨c, by rw [aget_adel_ne id cid _ hne]; exact hcc, hcp⟩)
    (by
      intro n kv hkv hp
      exact hpart2 n kv.1 kv.2
        (aget_of_mem_nodup kv.1 kv.2 _ hnd
          (mem_of_mem_adel id kv st.clients hkv)) hp)
    (by
      intro n hn
      obtain ⟨c, hcc, hcp⟩ := hpart1 n id hn
      rw [hc] at hcc
      cases hcc
      exact aget_isSome_mem_keys n old.services hcp)
  refine ⟨⟨?_, ?_, ?_⟩, hcl⟩
  · rw [hcl]
    exact nodup_keys_adel id st.clients hnd
  · intro name cid hn
    obtain ⟨c, hcc, hcp⟩ := hri.1 name cid hn
    exact ⟨c, by rw [hcl]; exact hcc, hcp⟩
  · intro name cid c hcc hcp
    rw [hcl] at hcc
    exact hri.2 name (cid, c) (mem_of_aget cid c _ hcc) hcp

/-- `unregister_client` preserves the registry invariant. -/
theorem unregister_inv (st : MgrState) (rawId : Str) (h : MgrInv st) :
    MgrInv (unregisterClient st rawId) := by
  unfold unregisterClient
  by_cases hid : (trimStr rawId).isEmpty
  · simpa [hid] using h
  · simp only [hid, Bool.false_eq_true, if_false]
    cases hc : aget (trimStr rawId) st.clients with
    | none => exact h
    | some old => exact (remove_reelect_inv st (trimStr rawId) old h hc).1

/-- The insert half of `register_client`: inserting a fresh client and
running the first-writer-wins loop preserves the registry invariant. -/
theorem register_insert_inv (id : Str) (started : Nat)
    (svcs : List RegisteredService) (st1 : MgrState) (h1 : MgrInv st1)
    (hid1 : aget id st1.clients = none) :
    MgrInv { clients :=
               aset id
                 { id := id, services := buildServices svcs,
                   started := started }
                 st1.clients,
             primary :=
               (buildServices svcs).foldl
                 (fun pr kv =>
                   match aget kv.1 pr with
                   | some _ => pr
                   | none => aset kv.1 id pr)
                 st1.primary } := by
  obtain ⟨hnd1, hp1, hp2⟩ := h1
  set cc : ClientConn :=
    { id := id, services := buildServices svcs, started := started } with hccdef
  refine ⟨?_, ?_, ?_⟩
  · exact nodup_keys_aset id cc st1.clients hnd1
  · intro name cid hn
    rw [orInsert_aget id (buildServices svcs) st1.primary name] at hn
    cases hpn : aget name st1.primary with
    | some v =>
        rw [hpn] at hn
        simp only at hn
        cases hn
        obtain ⟨c, hcc, hcp⟩ := hp1 name cid hpn
        have hvne : cid ≠ id := by
          intro hcon
          rw [hcon, hid1] at hcc
          exact absurd hcc (by simp)
        exact ⟨c, by rw [aget_aset_ne id cid cc _ hvne]; exact hcc, hcp⟩
    | none =>
        rw [hpn] at hn
        simp only at hn
        by_cases hmem : name ∈ (buildServices svcs).map Prod.fst
        · rw [if_pos hmem] at hn
          cases hn
          refine ⟨cc, ?_, ?_⟩
          · exact aget_aset_self id cc st1.clients
          · exact aget_isSome_of_mem_keys name (buildServices svcs) hmem
        · rw [if_neg hmem] at hn
          exact absurd hn (by simp)
  · intro name cid c hcc hcp
    rw [orInsert_aget id (buildServices svcs) st1.primary name]
    rcases mem_aset id cc (cid, c) st1.clients
        (mem_of_aget cid c _ hcc) with he | he
    · have hceq : c = cc := congrArg Prod.snd he
      have hmem : name ∈ (buildServices svcs).map Prod.fst := by
        apply aget_isSome_mem_keys name (buildServices svcs)
        have hcp' : providesName cc name := hceq ▸ hcp
        exact hcp'
      cases hpn : aget name st1.primary with
      | some v => simp
      | none => simp [hmem]
    · have hsome := hp2 name cid c (aget_of_mem_nodup cid c _ hnd1 he) hcp
      cases hpn : aget name st1.primary with
      | some v => simp
      | none =>
          rw [hpn] at hsome
          exact absurd hsome (by simp)

/-- `register_client` preserves the registry invariant. -/
theorem register_inv (st : MgrState) (id : Str) (started : Nat)
    (svcs : List RegisteredService) (h : MgrInv st) :
    MgrInv (registerClient st id started svcs) := by
  unfold registerClient
  by_cases hid : (trimStr id).isEmpty
  · simpa [hid] using h
  · simp only [hid, Bool.false_eq_true, if_false]
    cases hc : aget id st.clients with
    | none => exact register_insert_inv id started svcs st h hc
    | some old =>
        obtain ⟨hinv1, hcl1⟩ := remove_reelect_inv st id old h hc
        exact register_insert_inv id started svcs _ hinv1
          (by rw [hcl1]; exact aget_adel_self id st.clients)

/-- Claim C4: after any finite sequence of register/unregister
operations the registry invariant holds — every service provided by a
surviving client has a primary entry naming a surviving provider; on
registration of a name whose primary is already set and owned by another
client the existing owner is kept (first writer wins); and when the
owning client is unregistered, ownership of a still-provided service
passes to a surviving provider with the oldest `started` timestamp. -/
theorem claim_C4 :
    (∀ ops : List MgrOp, MgrInv (runOps ops)) ∧
    (∀ (ops : List MgrOp) (name : Str) (kv : Str × ClientConn),
      kv ∈ (runOps ops).clients → providesName kv.2 name →
      ∃ cid c, aget name (runOps ops).primary = some cid ∧
        aget cid (runOps ops).clients = some c ∧ providesName c name) ∧
    (∀ (st : MgrState) (id : Str) (started : Nat)
      (svcs : List RegisteredService) (name owner : Str),
      aget name st.primary = some owner → owner ≠ id →
      aget name (registerClient st id started svcs).primary = some owner) ∧
    (∀ (st : MgrState) (id name : Str) (c0 : ClientConn),
      (st.clients.map Prod.fst).Nodup →
      trimStr id = id → ¬id.isEmpty →
      aget id st.clients = some c0 → providesName c0 name →
      aget name st.primary = some id →
      (∃ kv, kv ∈ adel id st.clients ∧ providesName kv.2 name) →
      ∃ cid c, aget name (unregisterClient st id).primary = some cid ∧
        aget cid (adel id st.clients) = some c ∧ providesName c name ∧
        ∀ kv ∈ adel id st.clients, providesName kv.2 name →
          c.started ≤ kv.2.started) := by
  have hinit : MgrInv { clients := [], primary := [] } := by
    refine ⟨List.nodup_nil, ?_, ?_⟩
    · intro n cid h
      exact absurd h (by simp [aget])
    · intro n cid c h
      exact absurd h (by simp [aget])
  have hall : ∀ ops : List MgrOp, MgrInv (runOps ops) := by
    intro ops
    have hfold : ∀ (l : List MgrOp) (st : MgrState), MgrInv st →
        MgrInv (l.foldl applyOp st) := by
      intro l
      induction l with
      | nil => intro st h; exact h
      | cons op rest ih =>
          intro st h
          rw [List.foldl_cons]
          refine ih (applyOp st op) ?_
          cases op with
          | register id started svcs => exact register_inv st id started svcs h
          | unregister id => exact unregister_inv st id h
    exact hfold ops _ hinit
  refine ⟨hall, ?_, ?_, ?_⟩
  · intro ops name kv hkv hp
    obtain ⟨hnd, hp1, hp2⟩ := hall ops
    have hsome := hp2 name kv.1 kv.2
      (aget_of_mem_nodup kv.1 kv.2 _ hnd hkv) hp
    obtain ⟨cid, hcid⟩ := Option.isSome_iff_exists.mp hsome
    obtain ⟨c, hcc, hcp⟩ := hp1 name cid hcid
    exact ⟨cid, c, hcid, hcc, hcp⟩
  · intro st id started svcs name owner hown hne
    unfold registerClient
    by_cases hid : (trimStr id).isEmpty
    · simpa [hid] using hown
    · simp only [hid, Bool.false_eq_true, if_false]
      cases hc : aget id st.clients with
      | none =>
          have hor := orInsert_aget id (buildServices svcs) st.primary name
          rw [hown] at hor
          exact hor
      | some old =>
          have hpres := reelect_pres id name (old.services.map Prod.fst)
            { st with clients := adel id st.clients }
            (by
              show aget name st.primary ≠ some id
              rw [hown]
              intro hcon
              exact hne (by injection hcon))
          have hor := orInsert_aget id (buildServices svcs)
            (reelect { st with clients := adel id st.clients }
              (old.services.map Prod.fst) id).primary name
          rw [show aget name (reelect { st with clients := adel id st.clients }
              (old.services.map Prod.fst) id).primary = some owner from by
            rw [hpres]; exact hown] at hor
          exact hor
  · intro st id name c0 hnd htrim hne hget hprov hown hex
    unfold unregisterClient
    rw [htrim]
    simp only [hne, Bool.false_eq_true, if_false]
    cases hc : aget id st.clients with
    | none =>
        rw [hc] at hget
        exact absurd hget (by simp)
    | some old =>
        rw [hc] at hget
        cases hget
        exact reelect_target (c0.services.map Prod.fst)
          (adel id st.clients) st.primary id name
          (nodup_keys_adel id st.clients hnd)
          (aget_adel_self id st.clients)
          (aget_isSome_mem_keys name c0.services hprov)
          hown hex

/-- Claim C4 witness: clients `a` (older) and `b` both provide `svc`;
the invariant holds, registering `c` keeps `a` as owner, and
unregistering `a` promotes a surviving provider. -/
theorem claim_C4_witness :
    MgrInv (runOps
      [MgrOp.register "a".data 5 [⟨"svc".data, "tcp".data, [], false, [], []⟩],
       MgrOp.register "b".data 7 [⟨"svc".data, "tcp".data, [], false, [], []⟩]]) ∧
    aget "svc".data
      (registerClient (runOps
        [MgrOp.register "a".data 5 [⟨"svc".data, "tcp".data, [], false, [], []⟩],
         MgrOp.register "b".data 7 [⟨"svc".data, "tcp".data, [], false, [], []⟩]])
        "c".data 9 [⟨"svc".data, "tcp".data, [], false, [], []⟩]).primary =
      some "a".data ∧
    ∃ cid c, aget "svc".data
        (unregisterClient (runOps
          [MgrOp.register "a".data 5 [⟨"svc".data, "tcp".data, [], false, [], []⟩],
           MgrOp.register "b".data 7 [⟨"svc".data, "tcp".data, [], false, [], []⟩]])
          "a".data).primary = some cid ∧
      aget cid (adel "a".data (runOps
        [MgrOp.register "a".data 5 [⟨"svc".data, "tcp".data, [], false, [], []⟩],
         MgrOp.register "b".data 7 [⟨"svc".data, "tcp".data, [], false, [], []⟩]]).clients) =
        some c ∧
      providesName c "svc".data ∧
      ∀ kv ∈ adel "a".data (runOps
        [MgrOp.register "a".data 5 [⟨"svc".data, "tcp".data, [], false, [], []⟩],
         MgrOp.register "b".data 7 [⟨"svc".data, "tcp".data, [], false, [], []⟩]]).clients,
        providesName kv.2 "svc".data → c.started ≤ kv.2.started := by
  refine ⟨claim_C4.1 _, ?_, ?_⟩
  · exact claim_C4.2.2.1 _ "c".data 9
      [⟨"svc".data, "tcp".data, [], false, [], []⟩] "svc".data "a".data
      (by decide) (by decide)
  · exact claim_C4.2.2.2 _ "a".data "svc".data
      ⟨"a".data, [("svc".data, ⟨"svc".data, "tcp".data, [], false, [], []⟩)], 5⟩
      (by decide) (by decide) (by decide) (by decide) (by decide) (by decide)
      ⟨("b".data,
        ⟨"b".data, [("svc".data, ⟨"svc".data, "tcp".data, [], false, [], []⟩)], 7⟩),
        by decide, by decide⟩

end Prism
